import Mathlib

/-!
Shallow embedding of `src/shillelagh/adapters/api/gsheets/lib.py` (helper
functions of the GSheets adapter) together with proofs about the claims of
the specification.

Conventions of the embedding:
* Python strings are modelled as Lean `String` / `List Char`; only the ASCII
  behaviour of `str.upper` and `int()` is modelled (the inputs handled by the
  claims are ASCII).
* Fallible Python code is modelled with `Except PyErr`; `ValueError`,
  `KeyError` and shillelagh's `ProgrammingError` are the error values that
  the translated code can raise.
* Python dicts are modelled as association lists in insertion order; a
  lookup returns the value of the *last* binding of a key, which is exactly
  the value held by a Python dict built by successive assignments.
* The generator `gen_letters` is modelled as the function sending `n` to the
  `n`-th string the generator yields, by iterating the loop body on the
  mutable state `(letters, index)`.
-/

/-- Errors raised by the translated Python code.  `valueError` stands for the
builtin `ValueError`, `keyError` for `KeyError`, and `programmingError` for
shillelagh's `ProgrammingError` (the "configuration error" of the spec; the
class lives in `shillelagh/exceptions.py`, outside this module, and is
modelled as an error constructor carrying the message). -/
inductive PyErr where
  | valueError : PyErr
  | keyError : PyErr
  | programmingError : String → PyErr
  deriving DecidableEq, Repr

instance {ε α : Type _} [DecidableEq ε] [DecidableEq α] :
    DecidableEq (Except ε α)
  | .error e, .error f =>
    if h : e = f then .isTrue (by rw [h]) else .isFalse (by simp [h])
  | .error _, .ok _ => .isFalse (by simp)
  | .ok _, .error _ => .isFalse (by simp)
  | .ok a, .ok b =>
    if h : a = b then .isTrue (by rw [h]) else .isFalse (by simp [h])

/-- `string.ascii_uppercase` from the Python standard library. -/
def ascii_uppercase : List Char :=
  ['A', 'B', 'C', 'D', 'E', 'F', 'G', 'H', 'I', 'J', 'K', 'L', 'M',
   'N', 'O', 'P', 'Q', 'R', 'S', 'T', 'U', 'V', 'W', 'X', 'Y', 'Z']

/-- Replace the last element of a list (`letters[-1] = c` in Python).
On the empty list this returns the empty list; the translated code never
reaches that case because `letters` starts nonempty and only grows. -/
def setLast (l : List Char) (c : Char) : List Char :=
  match l with
  | [] => []
  | [_] => [c]
  | x :: xs => x :: setLast xs c

/-- State of the `gen_letters` generator after `n` yields have been prepared:
the pair `(letters, index)` of the Python source.  `genState 0` is the state
at the first `yield`; `genState (n+1)` applies the loop body that runs
between the `n`-th and the `(n+1)`-th `yield`. -/
def genState : Nat → List Char × Nat
  | 0 => (['A'], 0)
  | n + 1 =>
    let s := genState n
    let index := s.2 + 1
    if index = ascii_uppercase.length then
      (setLast s.1 'A' ++ ['A'], 0)
    else
      (setLast s.1 (ascii_uppercase.getD index 'A'), index)

/-- `gen_letters` from the source, as the function giving the `n`-th label
the generator yields. -/
def gen_letters (n : Nat) : String :=
  String.mk (genState n).1

/-- `str.index` of a character in a list of characters: the position of the
first occurrence, or a `ValueError` when absent (Python
`string.ascii_uppercase.index(letter)`). -/
def listIndex (l : List Char) (c : Char) : Except PyErr Nat :=
  match l.findIdx? (fun x => x = c) with
  | some i => .ok i
  | none => .error .valueError

/-- `get_index_from_letters` from the source: map every letter to
`ascii_uppercase.index(letter) + 1`, reverse, and take the positional
base-26 polynomial minus one. -/
def get_index_from_letters (letters : String) : Except PyErr Int :=
  match (letters.data.mapM (fun c => (listIndex ascii_uppercase c).map (· + 1)) :
      Except PyErr (List Nat)) with
  | .error e => .error e
  | .ok digits =>
    let base26 := digits.reverse
    .ok ((((base26.enum.map (fun p => (p.2 : Int) * (ascii_uppercase.length : Int) ^ p.1)).sum) : Int) - 1)

/-- Split a character list at the first occurrence of `c`:
`(before, some after)` when `c` occurs, `(l, none)` otherwise
(Python `s.split(c, 1)`). -/
def splitOnFirst (c : Char) : List Char → List Char × Option (List Char)
  | [] => ([], none)
  | x :: xs =>
    if x = c then ([], some xs)
    else
      let r := splitOnFirst c xs
      (x :: r.1, r.2)

/-- Python `s.split(c)` for a one-character separator: splits at every
occurrence and keeps empty pieces; the result is never empty. -/
def splitChar (c : Char) : List Char → List (List Char)
  | [] => [[]]
  | x :: xs =>
    if x = c then [] :: splitChar c xs
    else
      match splitChar c xs with
      | [] => [[x]]
      | h :: t => (x :: h) :: t

/-- Value of an ASCII hexadecimal digit. -/
def hexVal? (c : Char) : Option Nat :=
  if '0' ≤ c ∧ c ≤ '9' then some (c.toNat - '0'.toNat)
  else if 'a' ≤ c ∧ c ≤ 'f' then some (c.toNat - 'a'.toNat + 10)
  else if 'A' ≤ c ∧ c ≤ 'F' then some (c.toNat - 'A'.toNat + 10)
  else none

/-- Uppercase hexadecimal digit of a value below 16. -/
def hexDigit (n : Nat) : Char :=
  (['0', '1', '2', '3', '4', '5', '6', '7', '8', '9',
    'A', 'B', 'C', 'D', 'E', 'F']).getD n '0'

/-- UTF-8 encoding of one character, as its list of bytes. -/
def utf8Enc (c : Char) : List Nat :=
  let n := c.toNat
  if n < 0x80 then [n]
  else if n < 0x800 then [0xC0 + n / 0x40, 0x80 + n % 0x40]
  else if n < 0x10000 then
    [0xE0 + n / 0x1000, 0x80 + n / 0x40 % 0x40, 0x80 + n % 0x40]
  else
    [0xF0 + n / 0x40000, 0x80 + n / 0x1000 % 0x40, 0x80 + n / 0x40 % 0x40,
     0x80 + n % 0x40]

/-- Is `b` a UTF-8 continuation byte? -/
def isCont (b : Nat) : Bool := 0x80 ≤ b ∧ b < 0xC0

/-- UTF-8 decoding of a byte list, replacing ill-formed data with U+FFFD
(the `errors="replace"` decoding used by `urllib.parse.unquote`): an invalid
start byte yields one replacement character; a valid start byte followed by
an invalid continuation yields one replacement character and decoding resumes
at the invalid byte; a truncated valid prefix at the end of input yields one
replacement character.  The `fuel` argument only makes the recursion
structural; `utf8Dec` supplies the list length, which every step consumes at
least one byte of, so the fuel never runs out. -/
def utf8DecF : Nat → List Nat → List Char
  | 0, _ => []
  | _, [] => []
  | fuel + 1, b :: bs =>
    if h : b < 0x80 then
      Char.ofNatAux b (Or.inl (by omega)) :: utf8DecF fuel bs
    else if h2 : 0xC2 ≤ b ∧ b ≤ 0xDF then
      match bs with
      | [] => ['\uFFFD']
      | b1 :: bs1 =>
        if h1 : isCont b1 then
          have hv : (b - 0xC0) * 0x40 + (b1 - 0x80) < 0xD800 := by
            simp [isCont] at h1; omega
          Char.ofNatAux ((b - 0xC0) * 0x40 + (b1 - 0x80)) (Or.inl hv) ::
            utf8DecF fuel bs1
        else '\uFFFD' :: utf8DecF fuel (b1 :: bs1)
    else if h3 : 0xE0 ≤ b ∧ b ≤ 0xEF then
      let okB1 := fun b1 => isCont b1 ∧ (b = 0xE0 → 0xA0 ≤ b1) ∧
        (b = 0xED → b1 ≤ 0x9F)
      match bs with
      | [] => ['\uFFFD']
      | [b1] => if okB1 b1 then ['\uFFFD'] else '\uFFFD' :: utf8DecF fuel [b1]
      | b1 :: b2 :: bs2 =>
        if h1 : okB1 b1 then
          if hc : isCont b2 then
            have hv : (b - 0xE0) * 0x1000 + (b1 - 0x80) * 0x40 + (b2 - 0x80) <
                0xD800 ∨ (0xDFFF < (b - 0xE0) * 0x1000 + (b1 - 0x80) * 0x40 +
                (b2 - 0x80) ∧ (b - 0xE0) * 0x1000 + (b1 - 0x80) * 0x40 +
                (b2 - 0x80) < 0x110000) := by
              simp [okB1, isCont] at h1 hc
              by_cases hb : b = 0xED
              · subst hb; omega
              · omega
            Char.ofNatAux _ hv :: utf8DecF fuel bs2
          else '\uFFFD' :: utf8DecF fuel (b2 :: bs2)
        else '\uFFFD' :: utf8DecF fuel (b1 :: b2 :: bs2)
    else if h4 : 0xF0 ≤ b ∧ b ≤ 0xF4 then
      let okB1 := fun b1 => isCont b1 ∧ (b = 0xF0 → 0x90 ≤ b1) ∧
        (b = 0xF4 → b1 ≤ 0x8F)
      match bs with
      | [] => ['\uFFFD']
      | [b1] => if okB1 b1 then ['\uFFFD'] else '\uFFFD' :: utf8DecF fuel [b1]
      | [b1, b2] =>
        if okB1 b1 then
          if isCont b2 then ['\uFFFD'] else '\uFFFD' :: utf8DecF fuel [b2]
        else '\uFFFD' :: utf8DecF fuel [b1, b2]
      | b1 :: b2 :: b3 :: bs3 =>
        if h1 : okB1 b1 then
          if hc : isCont b2 then
            if hd : isCont b3 then
              have hv : (b - 0xF0) * 0x40000 + (b1 - 0x80) * 0x1000 +
                  (b2 - 0x80) * 0x40 + (b3 - 0x80) < 0xD800 ∨
                  (0xDFFF < (b - 0xF0) * 0x40000 + (b1 - 0x80) * 0x1000 +
                  (b2 - 0x80) * 0x40 + (b3 - 0x80) ∧
                  (b - 0xF0) * 0x40000 + (b1 - 0x80) * 0x1000 +
                  (b2 - 0x80) * 0x40 + (b3 - 0x80) < 0x110000) := by
                simp [okB1, isCont] at h1 hc hd
                right; omega
              Char.ofNatAux _ hv :: utf8DecF fuel bs3
            else '\uFFFD' :: utf8DecF fuel (b3 :: bs3)
          else '\uFFFD' :: utf8DecF fuel (b2 :: b3 :: bs3)
        else '\uFFFD' :: utf8DecF fuel (b1 :: b2 :: b3 :: bs3)
    else '\uFFFD' :: utf8DecF fuel bs

/-- UTF-8 decoding with replacement; see `utf8DecF`. -/
def utf8Dec (l : List Nat) : List Char := utf8DecF l.length l

/-- Tokenization step of `urllib.parse.unquote`: each `%XX` escape (two hex
digits) becomes a byte, everything else stays a literal character.  A `%` not
followed by two hex digits is kept literally and scanning resumes at the
next character. -/
def pctTokens : List Char → List (Char ⊕ Nat)
  | [] => []
  | [c] => [Sum.inl c]
  | [c, h1] => Sum.inl c :: pctTokens [h1]
  | c :: h1 :: h2 :: rest =>
    if c = '%' then
      match hexVal? h1, hexVal? h2 with
      | some a, some b => Sum.inr (a * 16 + b) :: pctTokens rest
      | _, _ => Sum.inl '%' :: pctTokens (h1 :: h2 :: rest)
    else Sum.inl c :: pctTokens (h1 :: h2 :: rest)

/-- Flatten the token stream: maximal runs of escape bytes are decoded as
UTF-8 (with replacement), literal characters pass through.  `pending` holds
the bytes of the current run in reverse order. -/
def tokensToChars (pending : List Nat) : List (Char ⊕ Nat) → List Char
  | [] => utf8Dec pending.reverse
  | Sum.inl c :: t => utf8Dec pending.reverse ++ c :: tokensToChars [] t
  | Sum.inr b :: t => tokensToChars (b :: pending) t

/-- `urllib.parse.unquote` with the default UTF-8 / `errors="replace"`
decoding. -/
def unquote (s : List Char) : List Char :=
  tokensToChars [] (pctTokens s)

/-- `unquote(s.replace('+', ' '))`, the decoding `parse_qsl` applies to
names and values. -/
def unquote_plus (s : List Char) : List Char :=
  unquote (s.map (fun c => if c = '+' then ' ' else c))

/-- The characters `urllib.parse.quote` never escapes
(`_ALWAYS_SAFE`: ASCII letters, digits and `_.-~`). -/
def alwaysSafe (c : Char) : Bool :=
  ('A' ≤ c ∧ c ≤ 'Z') ∨ ('a' ≤ c ∧ c ≤ 'z') ∨ ('0' ≤ c ∧ c ≤ '9') ∨
    c ∈ ['_', '.', '-', '~']

/-- `urllib.parse.quote_plus` with `safe=''`: spaces become `+`, safe
characters pass through, every other character is UTF-8 encoded and
percent-escaped with uppercase hex digits. -/
def quote_plus (s : List Char) : List Char :=
  s.flatMap fun c =>
    if c = ' ' then ['+']
    else if alwaysSafe c then [c]
    else (utf8Enc c).flatMap fun b => ['%', hexDigit (b / 16), hexDigit (b % 16)]

/-- ASCII whitespace stripped by Python `int(str)`. -/
def isPySpace (c : Char) : Bool :=
  c ∈ [' ', '\t', '\n', '\x0b', '\x0c', '\r']

/-- Is `c` an ASCII decimal digit? -/
def isAsciiDigit (c : Char) : Bool := '0' ≤ c ∧ c ≤ '9'

/-- Digit string of Python `int()`, after the optional sign: decimal digits
with single underscores allowed only between digits.  `acc` is the value of
the digits already consumed. -/
def pyDigits : Nat → List Char → Option Nat
  | acc, [] => some acc
  | acc, '_' :: c :: cs =>
    if isAsciiDigit c then pyDigits (acc * 10 + (c.toNat - '0'.toNat)) cs
    else none
  | _, ['_'] => none
  | acc, c :: cs =>
    if isAsciiDigit c then pyDigits (acc * 10 + (c.toNat - '0'.toNat)) cs
    else none

/-- Python `int(str)` restricted to ASCII: strip whitespace, parse an
optional sign and a nonempty digit string (underscores between digits
allowed); anything else is a `ValueError`, modelled as `none`. -/
def pyint? (s : List Char) : Option Int := do
  let t := ((s.dropWhile isPySpace).reverse.dropWhile isPySpace).reverse
  match t with
  | '+' :: r =>
    match r with
    | c :: _ => do guard (isAsciiDigit c); let n ← pyDigits 0 r; pure (n : Int)
    | [] => none
  | '-' :: r =>
    match r with
    | c :: _ => do guard (isAsciiDigit c); let n ← pyDigits 0 r; pure (-(n : Int))
    | [] => none
  | c :: _ => do guard (isAsciiDigit c); let n ← pyDigits 0 t; pure (n : Int)
  | [] => none

/-- Components returned by `urllib.parse.urlparse`. -/
structure UrlParts where
  scheme : List Char
  netloc : List Char
  path : List Char
  params : List Char
  query : List Char
  fragment : List Char
  deriving DecidableEq, Repr

/-- Characters allowed in a URL scheme (`urllib.parse.scheme_chars`). -/
def schemeChar (c : Char) : Bool :=
  ('A' ≤ c ∧ c ≤ 'Z') ∨ ('a' ≤ c ∧ c ≤ 'z') ∨ ('0' ≤ c ∧ c ≤ '9') ∨
    c ∈ ['+', '-', '.']

/-- ASCII lower-casing (`str.lower` restricted to ASCII). -/
def lowerAscii (l : List Char) : List Char := l.map Char.toLower

/-- ASCII upper-casing (`str.upper` restricted to ASCII). -/
def upperAscii (l : List Char) : List Char := l.map Char.toUpper

/-- The scheme step of `urlsplit`: when the part before the first `:` is a
nonempty run of scheme characters and the remainder is not a bare port
number, split it off (lower-cased); otherwise no scheme. -/
def splitScheme (url1 : List Char) : List Char × List Char :=
  match splitOnFirst ':' url1 with
  | (before, some rest) =>
    if before ≠ [] ∧ (∀ c ∈ before, schemeChar c) ∧
        ¬(rest ≠ [] ∧ ∀ c ∈ rest, isAsciiDigit c) then
      (lowerAscii before, rest)
    else ([], url1)
  | (_, none) => ([], url1)

/-- The netloc step of `urlsplit`: after a leading `//`, the authority runs
to the first of `/?#`; mismatched IPv6-style brackets raise `ValueError`. -/
def splitNetlocE (url2 : List Char) :
    Except PyErr (List Char × List Char) :=
  if url2.take 2 = ['/', '/'] then
    let netloc := (url2.drop 2).takeWhile (fun c => ¬c ∈ ['/', '?', '#'])
    let rest := (url2.drop 2).dropWhile (fun c => ¬c ∈ ['/', '?', '#'])
    if ('[' ∈ netloc ∧ ¬ ']' ∈ netloc) ∨ (']' ∈ netloc ∧ ¬ '[' ∈ netloc) then
      throw .valueError
    else
      pure (netloc, rest)
  else
    pure ([], url2)

/-- `url.split(c, 1)` with the second piece defaulting to the empty string:
the fragment and query steps of `urlsplit`. -/
def splitTail (c : Char) (l : List Char) : List Char × List Char :=
  match splitOnFirst c l with
  | (before, some after) => (before, after)
  | (before, none) => (before, [])

/-- `urllib.parse.urlsplit`: strip the unsafe bytes tab/CR/LF, split off a
scheme, a `//netloc`, then the fragment at the first `#` and the query at
the first `?`. -/
def urlsplit (url0 : List Char) :
    Except PyErr (List Char × List Char × List Char × List Char × List Char) := do
  let url1 := url0.filter (fun c => ¬c ∈ ['\t', '\r', '\n'])
  let (scheme, url2) := splitScheme url1
  let (netloc, url3) ← splitNetlocE url2
  let (url4, fragment) := splitTail '#' url3
  let (url5, query) := splitTail '?' url4
  pure (scheme, netloc, url5, query, fragment)

/-- Split a list at the last occurrence of `c` (`str.rfind`-based): `none`
when `c` is absent, otherwise the pieces before and after that occurrence. -/
def splitOnLast (c : Char) (l : List Char) :
    Option (List Char × List Char) :=
  match splitOnFirst c l.reverse with
  | (rafter, some rbefore) => some (rbefore.reverse, rafter.reverse)
  | (_, none) => none

/-- `urllib.parse._splitparams`, applied by `urlparse` when the path
contains `;`: split at the first `;` after the last `/` (or the first `;`
overall when there is no `/`). -/
def splitparams (url : List Char) : List Char × List Char :=
  match splitOnLast '/' url with
  | some (before, after) =>
    match splitOnFirst ';' after with
    | (a, some b) => (before ++ '/' :: a, b)
    | (_, none) => (url, [])
  | none =>
    match splitOnFirst ';' url with
    | (a, some b) => (a, b)
    | (a, none) => (a, [])

/-- `urllib.parse.urlparse`: `urlsplit`, then split path parameters off the
path when it contains `;`. -/
def urlparse (url : List Char) : Except PyErr UrlParts := do
  let (scheme, netloc, path0, query, fragment) ← urlsplit url
  let (path, params) :=
    if ';' ∈ path0 then splitparams path0 else (path0, [])
  pure ⟨scheme, netloc, path, params, query, fragment⟩

/-- `urllib.parse.parse_qsl` with the default arguments: split the query on
`&`, skip empty chunks, chunks without `=` and chunks with an empty value,
and decode names and values with `unquote_plus`. -/
def parse_qsl (qs : List Char) : List (List Char × List Char) :=
  (splitChar '&' qs).filterMap fun nv =>
    if nv = [] then none
    else
      match splitOnFirst '=' nv with
      | (_, none) => none
      | (n, some v) =>
        if v = [] then none else some (unquote_plus n, unquote_plus v)

/-- `parse_qs(qs)[key][-1]` combined with the `key in parse_qs(qs)` test:
the value of the last pair with the given name, `none` when the name does
not occur. -/
def qsLast (qs : List Char) (key : List Char) : Option (List Char) :=
  (((parse_qsl qs).filter (fun p => p.1 = key)).getLast?).map Prod.snd

/-- `urllib.parse.urlencode` on an insertion-ordered dict, with values
already rendered by `str`. -/
def urlencode (args : List (List Char × List Char)) : List Char :=
  List.intercalate ['&'] (args.map fun p => quote_plus p.1 ++ '=' :: quote_plus p.2)

/-- `urllib.parse.urlunsplit`. -/
def urlunsplit (scheme netloc url query fragment : List Char) : List Char :=
  let url :=
    if netloc ≠ [] ∨ url.take 2 = ['/', '/'] then
      ['/', '/'] ++ netloc ++
        (if url ≠ [] ∧ url.take 1 ≠ ['/'] then '/' :: url else url)
    else url
  let url := if scheme ≠ [] then scheme ++ ':' :: url else url
  let url := if query ≠ [] then url ++ '?' :: query else url
  if fragment ≠ [] then url ++ '#' :: fragment else url

/-- `urllib.parse.urlunparse`. -/
def urlunparse (scheme netloc url params query fragment : List Char) :
    List Char :=
  let url := if params ≠ [] then url ++ ';' :: params else url
  urlunsplit scheme netloc url query fragment

/-- `str.rstrip("/")`. -/
def rstripSlash (l : List Char) : List Char :=
  (l.reverse.dropWhile (fun c => c = '/')).reverse

/-- Resolved parameters of `get_url` after lines 85-102 of the source: the
parsed URL pieces, the rewritten path, and the header count, grid id and
sheet name after the query-string and fragment overrides. -/
structure ResolvedUrl where
  scheme : List Char
  netloc : List Char
  path : List Char
  headers : Int
  gid : Int
  sheet : Option (List Char)
  deriving DecidableEq, Repr

/-- Lines 85-102 of `get_url`: parse the URL, strip a trailing `/edit`,
append the `gviz/tq` endpoint, and resolve `headers`, `gid` and `sheet`
from the query string (last value wins) and the `gid=` fragment. -/
def get_url_resolve (uri : String) (headers : Int) (gid : Int)
    (sheet : Option (List Char)) : Except PyErr ResolvedUrl := do
  let parts ← urlparse uri.data
  let path :=
    if (parts.path.reverse.take 5) = ("/edit".data.reverse) then
      parts.path.take (parts.path.length - "/edit".length)
    else parts.path
  let path := rstripSlash path ++ '/' :: "gviz/tq".data
  let headers ←
    match qsLast parts.query "headers".data with
    | some v =>
      match pyint? v with
      | some n => pure n
      | none => throw PyErr.valueError
    | none => pure headers
  let gid ←
    match qsLast parts.query "gid".data with
    | some v =>
      match pyint? v with
      | some n => pure n
      | none => throw PyErr.valueError
    | none => pure gid
  let sheet :=
    match qsLast parts.query "sheet".data with
    | some v => some v
    | none => sheet
  let gid ←
    if parts.fragment.take 4 = "gid=".data then
      match pyint? (parts.fragment.drop 4) with
      | some n => pure n
      | none => throw PyErr.valueError
    else pure gid
  pure ⟨parts.scheme, parts.netloc, path, headers, gid, sheet⟩

/-- The `args` dict of `get_url` (lines 104-110), in insertion order, with
the integer values rendered by `str`. -/
def get_url_args (r : ResolvedUrl) : List (List Char × List Char) :=
  (if 0 < r.headers then [("headers".data, (toString r.headers).data)] else []) ++
    (match r.sheet with
     | some s => [("sheet".data, s)]
     | none => [("gid".data, (toString r.gid).data)])

/-- `get_url` from the source: resolve the parameters, build the `args`
dict, urlencode it and reassemble the URL with `urlunparse`. -/
def get_url (uri : String) (headers : Int := 0) (gid : Int := 0)
    (sheet : Option (List Char) := none) : Except PyErr String := do
  let r ← get_url_resolve uri headers gid sheet
  let params := urlencode (get_url_args r)
  pure (String.mk (urlunparse r.scheme r.netloc r.path [] params []))

/-- Modelled from the spec: the `SyncMode` enumeration lives in
`shillelagh/adapters/api/gsheets/types.py`, which is not part of this
module's source.  The spec describes it as a closed enumeration identified
interchangeably by case-insensitive symbolic name or integer code, and the
source docstring of `get_sync_mode` records that `BATCH` has numeric
code 3; the adapter's three modes are bidirectional, unidirectional and
batch, numbered 1, 2 and 3. -/
inductive SyncMode where
  | BIDIRECTIONAL : SyncMode
  | UNIDIRECTIONAL : SyncMode
  | BATCH : SyncMode
  deriving DecidableEq, Repr

/-- Numeric code of each synchronization mode. -/
def SyncMode.value : SyncMode → Int
  | .BIDIRECTIONAL => 1
  | .UNIDIRECTIONAL => 2
  | .BATCH => 3

/-- `SyncMode[name]`: lookup by symbolic name, `KeyError` modelled as
`none`. -/
def syncModeByName (s : List Char) : Option SyncMode :=
  if s = "BIDIRECTIONAL".data then some .BIDIRECTIONAL
  else if s = "UNIDIRECTIONAL".data then some .UNIDIRECTIONAL
  else if s = "BATCH".data then some .BATCH
  else none

/-- `SyncMode(value)`: lookup by numeric code, `ValueError` modelled as
`none`. -/
def syncModeByValue (n : Int) : Option SyncMode :=
  if n = 1 then some .BIDIRECTIONAL
  else if n = 2 then some .UNIDIRECTIONAL
  else if n = 3 then some .BATCH
  else none

/-- `get_sync_mode` from the source: take the last `sync_mode` query value,
uppercase it, try the symbolic names, then the integer codes; `None`
(modelled as `Except.ok none`) when the parameter is absent, and a
`ProgrammingError` carrying the uppercased token when both lookups fail. -/
def get_sync_mode (uri : String) : Except PyErr (Option SyncMode) := do
  let parts ← urlparse uri.data
  match qsLast parts.query "sync_mode".data with
  | none => pure none
  | some v =>
    let parameter := upperAscii v
    match syncModeByName parameter with
    | some m => pure (some m)
    | none =>
      match pyint? parameter with
      | some n =>
        match syncModeByValue n with
        | some m => pure (some m)
        | none =>
          throw (.programmingError ("Invalid sync mode: " ++ String.mk parameter))
      | none =>
        throw (.programmingError ("Invalid sync mode: " ++ String.mk parameter))

/-- Lookup in a Python dict built by successive assignments from an
insertion-ordered association list: the value of the last binding of the
key, or `none` (`dict.get` / the `in` test). -/
def dget (l : List (String × α)) (k : String) : Option α :=
  (l.reverse.find? (fun p => p.1 = k)).map Prod.snd

/-- Python `<` on strings: code-point lexicographic comparison, a strict
prefix being smaller. -/
def pyStrLt : List Char → List Char → Bool
  | [], [] => false
  | [], _ :: _ => true
  | _ :: _, [] => false
  | a :: as, b :: bs =>
    if a.val < b.val then true
    else if b.val < a.val then false
    else pyStrLt as bs

/-- Python `max` over an iterable of strings: `none` (a `ValueError`) on an
empty iterable, otherwise the left-most maximum under the code-point
lexicographic order `<`. -/
def pymax : List String → Option String
  | [] => none
  | x :: xs => some (xs.foldl (fun a b => if pyStrLt a.data b.data then b else a) x)

/-- First comprehension of `get_values_from_row`: serialize the values of
the fields that appear in `columns`. -/
def row_serialized (row : List (String × α))
    (columns : List (String × (α → α))) : List (String × α) :=
  row.filterMap fun kv => (dget columns kv.1).map fun f => (kv.1, f kv.2)

/-- Second comprehension of `get_values_from_row`: re-key the serialized
row by column letter via `column_map`. -/
def row_by_letter (row1 : List (String × α))
    (column_map : List (String × String)) : List (String × α) :=
  row1.filterMap fun kv =>
    (dget column_map kv.1).map fun letter => (letter, kv.2)

/-- `get_values_from_row` from the source.  A field of type `Field` is
modelled by its `to_unformatted` serialization capability (`fields.py` is
outside this module); `row` and the two dicts are insertion-ordered
association lists.  The three steps are the source's three comprehensions:
serialize the row values whose field is in `columns`, re-key them by column
letter via `column_map`, and read the first `n_cols` generated labels out
of the letter-keyed dict (`None` for absent letters).  `max` of the empty
dict raises `ValueError`. -/
def get_values_from_row (row : List (String × α))
    (columns : List (String × (α → α))) (column_map : List (String × String)) :
    Except PyErr (List (Option α)) := do
  let row2 := row_by_letter (row_serialized row columns) column_map
  match pymax (column_map.map Prod.snd) with
  | none => throw PyErr.valueError
  | some m => do
    let idx ← get_index_from_letters m
    let n_cols := idx + 1
    pure (((List.range n_cols.toNat).map gen_letters).map fun c => dget row2 c)

/-- The twenty-six single-character column labels `"A"`..`"Z"`, the labels
of the first sheet columns. -/
def singles : List String := ascii_uppercase.map fun c => String.mk [c]

/-- The column index of a single-character label: its position in
`singles` (26 for a string that is not a single uppercase letter). -/
def sIdx (s : String) : Nat := singles.findIdx (fun t => t = s)

/-- The query component of an assembled URL string: everything after the
first `?` (empty when there is none). -/
def queryOf (u : String) : List Char := ((splitOnFirst '?' u.data).2).getD []

/-- The parameter names of a query string: the piece before the first `=`
of every `&`-separated chunk. -/
def queryKeys (q : List Char) : List (List Char) :=
  (splitChar '&' q).map (List.takeWhile (fun c => c ≠ '='))

/-- A "safe" parameter token: none of the characters that the URL or
query-string grammar treats specially, so that parsing and unquoting leave
it untouched.  Statement-side predicate only. -/
def safeTok (s : List Char) : Prop :=
  ∀ c ∈ s, c ∉ ['&', '=', '#', '?', ':', '/', '%', '+', '\t', '\r', '\n']

instance (s : List Char) : Decidable (safeTok s) :=
  List.decidableBAll _ s

/-- A Python value appearing in a row, for concrete instances. -/
inductive PyVal where
  | str : String → PyVal
  | int : Int → PyVal
  deriving DecidableEq, Repr

/-- `c ∈ ascii_uppercase` makes `str.index` succeed. -/
theorem listIndex_ok {c : Char} (h : c ∈ ascii_uppercase) :
    ∃ i, listIndex ascii_uppercase c = .ok i := by
  unfold listIndex
  suffices hs : (ascii_uppercase.findIdx? (fun x => x = c)).isSome by
    obtain ⟨i, hi⟩ := Option.isSome_iff_exists.mp hs
    exact ⟨i, by rw [hi]⟩
  rw [Option.isSome_iff_ne_none]
  intro hn
  rw [List.findIdx?_eq_none_iff] at hn
  simpa using hn c h

/-- `mapM` over `Except` succeeds when every element does. -/
theorem mapM_ok {l : List Char} {f : Char → Except PyErr Nat}
    (h : ∀ c ∈ l, ∃ y, f c = .ok y) : ∃ ys, l.mapM f = .ok ys := by
  induction l with
  | nil => exact ⟨[], rfl⟩
  | cons x xs ih =>
    obtain ⟨y, hy⟩ := h x (by simp)
    obtain ⟨ys, hys⟩ := ih (fun c hc => h c (by simp [hc]))
    refine ⟨y :: ys, ?_⟩
    rw [List.mapM_cons, hy, hys]
    rfl

/-- C1 (evidence for the code bug): the label generator is correct through
`"AZ"` but does not propagate carry at the next digit boundary: after
`"AZ"` (index 51) it emits `"AAA"`, not the `"BA"` that the bijective
base-26 encoding prescribes. -/
theorem gen_letters_no_carry_at_52 :
    gen_letters 25 = "Z" ∧ gen_letters 26 = "AA" ∧ gen_letters 51 = "AZ" ∧
    gen_letters 52 = "AAA" ∧ gen_letters 52 ≠ "BA" ∧ gen_letters 53 = "AAB" := by
  refine ⟨?_, ?_, ?_, ?_, ?_, ?_⟩ <;> decide

/-- C2 (evidence for the code bug): the decode/encode round trip holds for
all indices below 52 and fails at 52: the 52-nd generated label `"AAA"`
decodes to 702, not 52. -/
theorem roundtrip_ok_below_52_fails_at_52 :
    ((List.range 52).map fun n => get_index_from_letters (gen_letters n)) =
      ((List.range 52).map fun n => .ok (n : Int)) ∧
    get_index_from_letters (gen_letters 52) = .ok (702 : Int) ∧
    (702 : Int) ≠ 52 := by
  refine ⟨?_, ?_, ?_⟩ <;> decide

/-- C10: `get_index_from_letters` is total on strings of uppercase letters;
on the empty string it raises nothing and returns `-1`. -/
theorem get_index_from_letters_total_on_uppercase :
    get_index_from_letters "" = .ok (-1) ∧
    ∀ s : String, (∀ c ∈ s.data, c ∈ ascii_uppercase) →
      ∃ n : Int, get_index_from_letters s = .ok n := by
  refine ⟨by decide, fun s h => ?_⟩
  have hall : ∀ c ∈ s.data, ∃ y,
      (listIndex ascii_uppercase c).map (· + 1) = .ok y := by
    intro c hc
    obtain ⟨i, hi⟩ := listIndex_ok (h c hc)
    exact ⟨i + 1, by rw [hi]; rfl⟩
  obtain ⟨ys, hys⟩ := mapM_ok hall
  unfold get_index_from_letters
  rw [hys]
  exact ⟨_, rfl⟩

/-- C10 witness: the theorem applied to the concrete label `"AB"`. -/
theorem get_index_from_letters_total_on_uppercase_witness :
    ∃ n : Int, get_index_from_letters "AB" = .ok n :=
  get_index_from_letters_total_on_uppercase.2 "AB" (by decide)

theorem except_bind_ok (a : α) (f : α → Except ε β) :
    (Except.ok a >>= f : Except ε β) = f a := rfl

theorem except_bind_error (e : ε) (f : α → Except ε β) :
    (Except.error e >>= f : Except ε β) = .error e := rfl

/-- C4 (amended): `get_values_from_row` performs no validation of the
column map.  An empty column map fails with the `ValueError` that `max`
raises on an empty iterable, not with a configuration error; and when two
distinct fields map to the same letter no error is raised: the field
iterated last in the row silently overwrites the other's value. -/
theorem get_values_from_row_no_collision_validation :
    (∀ {α : Type} (row : List (String × α)) (columns : List (String × (α → α))),
      get_values_from_row row columns [] = .error .valueError) ∧
    (∀ {α : Type} (k1 k2 : String) (v1 v2 : α) (f1 f2 : α → α), k1 ≠ k2 →
      get_values_from_row [(k1, v1), (k2, v2)] [(k1, f1), (k2, f2)]
        [(k1, "A"), (k2, "A")] = .ok [some (f2 v2)]) := by
  refine ⟨fun _ _ => rfl, fun k1 k2 v1 v2 f1 f2 hk => ?_⟩
  have h21 : ((k2 : String) = k1) = False := by simp [Ne.symm hk]
  simp [get_values_from_row, row_serialized, row_by_letter, dget, pymax,
    List.find?, h21, get_index_from_letters, listIndex, ascii_uppercase,
    gen_letters, genState, except_bind_ok]
  rfl

/-- C4 witness: the collision half of the theorem at a concrete call. -/
theorem get_values_from_row_no_collision_validation_witness :
    get_values_from_row [("a", PyVal.int 1), ("b", PyVal.int 2)]
      [("a", fun v => v), ("b", fun v => v)] [("a", "A"), ("b", "A")] =
      .ok [some (PyVal.int 2)] :=
  get_values_from_row_no_collision_validation.2 "a" "b" (PyVal.int 1)
    (PyVal.int 2) (fun v => v) (fun v => v) (by decide)

/-- C4 counterexample: two distinct fields mapped to the same letter are
not rejected; the call returns normally with the second field's value. -/
theorem get_values_from_row_collision_cex :
    get_values_from_row [("x", PyVal.str "u"), ("y", PyVal.str "w")]
      [("x", fun v => v), ("y", fun v => v)] [("x", "B"), ("y", "B")] =
      .ok [none, some (PyVal.str "w")] ∧
    ∀ e : PyErr,
      get_values_from_row [("x", PyVal.str "u"), ("y", PyVal.str "w")]
        [("x", fun v => v), ("y", fun v => v)] [("x", "B"), ("y", "B")] ≠
        .error e := by
  refine ⟨by decide, fun e h => ?_⟩
  rw [show get_values_from_row [("x", PyVal.str "u"), ("y", PyVal.str "w")]
      [("x", fun v => v), ("y", fun v => v)] [("x", "B"), ("y", "B")] =
      .ok [none, some (PyVal.str "w")] from by decide] at h
  exact absurd h (by simp)

/-- C3 counterexample: with the column map `{"country": "AA", "cnt": "B"}`
the maximum column index is 26 (label `"AA"`), so the claim prescribes a
27-element row with `"BR"` at position 26; the code takes the
lexicographic `max` (`"B"`), emits only 2 positions and drops `"BR"`
entirely. -/
theorem get_values_from_row_width_cex :
    get_values_from_row [("country", PyVal.str "BR"), ("cnt", PyVal.int 10)]
      [("country", fun v => v), ("cnt", fun v => v)]
      [("country", "AA"), ("cnt", "B")] = .ok [none, some (PyVal.int 10)] ∧
    get_index_from_letters "AA" = .ok 26 ∧
    ([none, some (PyVal.int 10)] : List (Option PyVal)).length ≠ 26 + 1 := by
  refine ⟨by decide, by decide, by decide⟩

/-- C8 counterexample: the configuration error raised for an unresolvable
token carries the uppercased token, not the token verbatim as supplied in
the URL. -/
theorem get_sync_mode_uppercased_token_cex :
    get_sync_mode "https://x/y?sync_mode=bogus" =
      .error (.programmingError "Invalid sync mode: BOGUS") ∧
    "BOGUS" ≠ "bogus" := by
  refine ⟨by decide, by decide⟩

/-- C9 counterexample: a syntactically valid URL whose `gid` query value is
not an integer makes `get_url` raise a `ValueError` instead of returning a
result. -/
theorem get_url_nonint_gid_cex :
    get_url "https://x/y/d/ID/edit?gid=abc" 0 0 none = .error .valueError := by
  decide

theorem except_pure (a : α) : (pure a : Except ε α) = .ok a := rfl

theorem except_throw (e : ε) : (throw e : Except ε α) = .error e := rfl

/-- The only error `splitNetlocE` raises is `ValueError`. -/
theorem splitNetlocE_error_eq {l : List Char} {e : PyErr}
    (h : splitNetlocE l = .error e) : e = .valueError := by
  unfold splitNetlocE at h
  dsimp only at h
  repeat' split at h
  all_goals
    simp only [except_throw, except_pure] at h
  all_goals first
    | (cases h; rfl)
    | exact Except.noConfusion h

/-- The only error `urlsplit` raises is `ValueError` (mismatched IPv6
brackets). -/
theorem urlsplit_error_eq {l : List Char} {e : PyErr}
    (h : urlsplit l = .error e) : e = .valueError := by
  unfold urlsplit at h
  dsimp only at h
  rcases hss : splitScheme (l.filter (fun c => ¬c ∈ ['\t', '\r', '\n']))
    with ⟨scheme, url2⟩
  rw [hss] at h
  dsimp only at h
  rcases hn : splitNetlocE url2 with f | x
  · rw [hn, except_bind_error] at h
    cases h
    exact splitNetlocE_error_eq hn
  · rw [hn, except_bind_ok] at h
    simp only [except_pure] at h
    exact Except.noConfusion h

/-- The only error `urlparse` raises is `ValueError`. -/
theorem urlparse_error_eq {l : List Char} {e : PyErr}
    (h : urlparse l = .error e) : e = .valueError := by
  unfold urlparse at h
  rcases hs : urlsplit l with f | x
  · rw [hs, except_bind_error] at h
    cases h
    exact urlsplit_error_eq hs
  · rw [hs, except_bind_ok] at h
    dsimp only at h
    split at h <;>
      (simp only [except_pure, except_bind_ok] at h; exact Except.noConfusion h)

/-- The only error the parameter-resolution phase of `get_url` raises is
`ValueError` (URL parsing, or `int()` on a `headers`/`gid` query value or a
`gid=` fragment). -/
theorem get_url_resolve_error_eq {uri : String} {headers gid : Int}
    {sheet : Option (List Char)} {e : PyErr}
    (h : get_url_resolve uri headers gid sheet = .error e) : e = .valueError := by
  unfold get_url_resolve at h
  rcases hp : urlparse uri.data with f | parts
  · rw [hp, except_bind_error] at h
    cases h
    exact urlparse_error_eq hp
  · rw [hp, except_bind_ok] at h
    dsimp only at h
    repeat' split at h
    all_goals
      simp only [except_throw, except_pure, except_bind_ok, except_bind_error] at h
    all_goals first
      | (cases h; rfl)
      | exact Except.noConfusion h

/-- `get_url` either returns a URL or raises `ValueError` (from a
non-integer `headers`/`gid` query value or `gid=` fragment, or a URL whose
authority has mismatched IPv6 brackets); it raises nothing else. -/
theorem get_url_ok_or_valueError :
    ∀ (uri : String) (headers gid : Int) (sheet : Option (List Char)),
      (∃ u, get_url uri headers gid sheet = .ok u) ∨
        get_url uri headers gid sheet = .error .valueError := by
  intro uri headers gid sheet
  rcases h : get_url uri headers gid sheet with e | u
  · right
    suffices he : e = .valueError by rw [← he]
    unfold get_url at h
    rcases hr : get_url_resolve uri headers gid sheet with f | r
    · rw [hr, except_bind_error] at h
      cases h
      exact get_url_resolve_error_eq hr
    · rw [hr, except_bind_ok] at h
      dsimp only at h
      simp only [except_pure] at h
      exact Except.noConfusion h
  · left
    exact ⟨u, rfl⟩

theorem get_url_resolve_ok_of {uri : String} {headers gid : Int}
    {sheet : Option (List Char)} {parts : UrlParts}
    (hp : urlparse uri.data = .ok parts)
    (hh : (qsLast parts.query "headers".data).all
      (fun v => (pyint? v).isSome) = true)
    (hg : (qsLast parts.query "gid".data).all
      (fun v => (pyint? v).isSome) = true)
    (hf : parts.fragment.take 4 = "gid=".data →
      (pyint? (parts.fragment.drop 4)).isSome = true) :
    ∃ r, get_url_resolve uri headers gid sheet = .ok r := by
  unfold get_url_resolve
  rw [hp, except_bind_ok]
  dsimp only
  rcases hqh : qsLast parts.query "headers".data with _ | v1
  all_goals first
    | (rw [hqh, Option.all_some] at hh;
       obtain ⟨n1, hn1⟩ := Option.isSome_iff_exists.mp hh;
       dsimp only [except_pure, except_bind_ok];
       rw [hn1];
       dsimp only [except_pure, except_bind_ok])
    | dsimp only [except_pure, except_bind_ok]
  all_goals rcases hqg : qsLast parts.query "gid".data with _ | v2
  all_goals first
    | (rw [hqg, Option.all_some] at hg;
       obtain ⟨n2, hn2⟩ := Option.isSome_iff_exists.mp hg;
       dsimp only [except_pure, except_bind_ok];
       rw [hn2];
       dsimp only [except_pure, except_bind_ok])
    | dsimp only [except_pure, except_bind_ok]
  all_goals by_cases hfr : parts.fragment.take 4 = ['g', 'i', 'd', '=']
  all_goals first
    | (rw [if_neg hfr];
       exact ⟨_, rfl⟩)
    | (obtain ⟨n3, hn3⟩ := Option.isSome_iff_exists.mp (hf hfr);
       rw [if_pos hfr, hn3];
       exact ⟨_, rfl⟩)

/-- C9 (amended): `get_url` returns a result for every parseable URL whose
`headers`/`gid` query values and `gid=` fragment parse as integers, and
`ValueError` - raised for a non-integer such value or for an authority
with mismatched IPv6-style brackets - is its only failure mode. -/
theorem get_url_restricted_totality :
    (∀ (uri : String) (headers gid : Int) (sheet : Option (List Char))
        (parts : UrlParts),
      urlparse uri.data = .ok parts →
      (qsLast parts.query "headers".data).all
        (fun v => (pyint? v).isSome) = true →
      (qsLast parts.query "gid".data).all
        (fun v => (pyint? v).isSome) = true →
      (parts.fragment.take 4 = "gid=".data →
        (pyint? (parts.fragment.drop 4)).isSome = true) →
      ∃ u, get_url uri headers gid sheet = .ok u) ∧
    (∀ (uri : String) (headers gid : Int) (sheet : Option (List Char)),
      (∃ u, get_url uri headers gid sheet = .ok u) ∨
        get_url uri headers gid sheet = .error .valueError) := by
  constructor
  · intro uri headers gid sheet parts hp hh hg hf
    obtain ⟨r, hr⟩ := @get_url_resolve_ok_of uri headers gid sheet parts hp hh hg hf
    unfold get_url
    rw [hr, except_bind_ok]
    exact ⟨_, rfl⟩
  · exact get_url_ok_or_valueError

/-- C9 witness: the totality half applied to the concrete URL
`https://x/y/d/ID/edit?headers=2&gid=3#gid=7`, whose `headers` and `gid`
query values and `gid=` fragment are all integers. -/
theorem get_url_restricted_totality_witness :
    ∃ u, get_url "https://x/y/d/ID/edit?headers=2&gid=3#gid=7" 0 0 none = .ok u :=
  get_url_restricted_totality.1 "https://x/y/d/ID/edit?headers=2&gid=3#gid=7" 0 0 none
    ⟨"https".data, "x".data, "/y/d/ID/edit".data, [], "headers=2&gid=3".data,
      "gid=7".data⟩
    (by decide) (by decide) (by decide) (by decide)

/-- C8 (amended): when the `sync_mode` token matches neither a symbolic
name nor a numeric code, `get_sync_mode` fails with a configuration error
whose payload carries the offending token *uppercased* (as used for the
lookup), not verbatim as supplied, and no default mode is substituted. -/
theorem get_sync_mode_error_detail :
    ∀ (uri : String) (parts : UrlParts) (tok : List Char),
      urlparse uri.data = .ok parts →
      qsLast parts.query "sync_mode".data = some tok →
      syncModeByName (upperAscii tok) = none →
      (∀ n : Int, pyint? (upperAscii tok) = some n → syncModeByValue n = none) →
      get_sync_mode uri =
        .error (.programmingError ("Invalid sync mode: " ++ String.mk (upperAscii tok))) := by
  intro uri parts tok h1 h2 h3 h4
  unfold get_sync_mode
  rw [h1, except_bind_ok]
  dsimp only
  rw [h2]
  dsimp only
  rw [h3]
  dsimp only
  rcases hp : pyint? (upperAscii tok) with _ | n
  · rfl
  · dsimp only
    rw [h4 n hp]
    rfl

/-- C8 witness: the theorem at the concrete token `"zzz"`. -/
theorem get_sync_mode_error_detail_witness :
    get_sync_mode "https://x/y?sync_mode=zzz" =
      .error (.programmingError "Invalid sync mode: ZZZ") :=
  get_sync_mode_error_detail "https://x/y?sync_mode=zzz"
    ⟨"https".data, "x".data, "/y".data, [], "sync_mode=zzz".data, []⟩
    "zzz".data (by decide) (by decide) (by decide)
    (fun n hn => by
      rw [show pyint? (upperAscii "zzz".data) = none from by decide] at hn
      exact Option.noConfusion hn)

/-- C7: `get_sync_mode` returns "no preference" (`ok none`, not an error)
when the query string has no `sync_mode` parameter; when present the last
value wins, names are matched case-insensitively first, and numeric codes
are accepted, so `batch`, `BATCH`, `bAtCh` and `3` all resolve to the same
mode. -/
theorem get_sync_mode_resolution :
    (∀ (uri : String) (parts : UrlParts),
      urlparse uri.data = .ok parts →
      qsLast parts.query "sync_mode".data = none →
      get_sync_mode uri = .ok none) ∧
    get_sync_mode "https://x/y?sync_mode=batch" = .ok (some .BATCH) ∧
    get_sync_mode "https://x/y?sync_mode=BATCH" = .ok (some .BATCH) ∧
    get_sync_mode "https://x/y?sync_mode=bAtCh" = .ok (some .BATCH) ∧
    get_sync_mode "https://x/y?sync_mode=3" = .ok (some .BATCH) ∧
    get_sync_mode "https://x/y?sync_mode=1" = .ok (some .BIDIRECTIONAL) ∧
    get_sync_mode "https://x/y?sync_mode=2" = .ok (some .UNIDIRECTIONAL) ∧
    get_sync_mode "https://x/y?sync_mode=9&sync_mode=batch" = .ok (some .BATCH) ∧
    get_sync_mode "https://x/y" = .ok none := by
  refine ⟨fun uri parts h1 h2 => ?_, by decide, by decide, by decide, by decide,
    by decide, by decide, by decide, by decide⟩
  unfold get_sync_mode
  rw [h1, except_bind_ok]
  dsimp only
  rw [h2]
  rfl

/-- C7 witness: the absent-parameter half of the theorem at a concrete
URL. -/
theorem get_sync_mode_resolution_witness :
    get_sync_mode "https://x/y?foo=1" = .ok none :=
  get_sync_mode_resolution.1 "https://x/y?foo=1"
    ⟨"https".data, "x".data, "/y".data, [], "foo=1".data, []⟩
    (by decide) (by decide)

theorem splitOnFirst_some {c : Char} {l a b : List Char}
    (h : splitOnFirst c l = (a, some b)) : l = a ++ c :: b ∧ c ∉ a := by
  induction l generalizing a b with
  | nil => simp [splitOnFirst] at h
  | cons x xs ih =>
    rcases hs : splitOnFirst c xs with ⟨a', ob⟩
    rw [splitOnFirst, hs] at h
    dsimp only at h
    split at h
    next hx =>
      cases h
      subst hx
      exact ⟨rfl, by simp⟩
    next hx =>
      cases h
      obtain ⟨h1, h2⟩ := ih hs
      refine ⟨by simp [h1], fun hc => ?_⟩
      rcases List.mem_cons.mp hc with rfl | hc
      · exact hx rfl
      · exact h2 hc

theorem splitOnFirst_none {c : Char} {l a : List Char}
    (h : splitOnFirst c l = (a, none)) : a = l ∧ c ∉ l := by
  induction l generalizing a with
  | nil =>
    rw [splitOnFirst] at h
    cases h
    exact ⟨rfl, by simp⟩
  | cons x xs ih =>
    rcases hs : splitOnFirst c xs with ⟨a', ob⟩
    rw [splitOnFirst, hs] at h
    dsimp only at h
    split at h
    next hx => cases h
    next hx =>
      cases h
      obtain ⟨h1, h2⟩ := ih hs
      exact ⟨by simp [h1], by simp [Ne.symm hx, h2, List.mem_cons]⟩

theorem splitOnFirst_not_mem {c : Char} {l : List Char} (h : c ∉ l) :
    splitOnFirst c l = (l, none) := by
  induction l with
  | nil => rfl
  | cons x xs ih =>
    rw [splitOnFirst]
    rw [if_neg (by rintro rfl; exact h (by simp))]
    rw [ih (fun hc => h (by simp [hc]))]

theorem splitOnFirst_append {c : Char} {a : List Char} (b : List Char)
    (h : c ∉ a) : splitOnFirst c (a ++ c :: b) = (a, some b) := by
  induction a with
  | nil => simp [splitOnFirst]
  | cons x xs ih =>
    rw [List.cons_append, splitOnFirst]
    rw [if_neg (by rintro rfl; exact h (by simp))]
    rw [ih (fun hc => h (by simp [hc]))]

theorem splitChar_not_mem {c : Char} {l : List Char} (h : c ∉ l) :
    splitChar c l = [l] := by
  induction l with
  | nil => rfl
  | cons x xs ih =>
    rw [splitChar]
    rw [if_neg (by rintro rfl; exact h (by simp))]
    rw [ih (fun hc => h (by simp [hc]))]

theorem splitChar_append {c : Char} {a : List Char} (b : List Char)
    (h : c ∉ a) : splitChar c (a ++ c :: b) = a :: splitChar c b := by
  induction a with
  | nil => simp [splitChar]
  | cons x xs ih =>
    rw [List.cons_append, splitChar]
    rw [if_neg (by rintro rfl; exact h (by simp))]
    rw [ih (fun hc => h (by simp [hc]))]

theorem takeWhile_prefix_stop {p : Char → Bool} {a : List Char} {x : Char}
    (b : List Char) (ha : ∀ y ∈ a, p y) (hx : ¬p x) :
    List.takeWhile p (a ++ x :: b) = a := by
  induction a with
  | nil => simp [List.takeWhile, hx]
  | cons y ys ih =>
    rw [List.cons_append, List.takeWhile_cons]
    rw [if_pos (ha y (by simp))]
    rw [ih (fun z hz => ha z (by simp [hz]))]

theorem hexDigit_mem (n : Nat) :
    hexDigit n ∈ ['0', '1', '2', '3', '4', '5', '6', '7', '8', '9',
      'A', 'B', 'C', 'D', 'E', 'F'] := by
  unfold hexDigit
  rcases Nat.lt_or_ge n 16 with h | h
  · interval_cases n <;> decide
  · rw [List.getD_eq_default _ _ (by simpa using h)]
    decide

theorem quote_plus_chars {s : List Char} {c : Char} (h : c ∈ quote_plus s) :
    c = '+' ∨ alwaysSafe c = true ∨ c = '%' ∨
      c ∈ ['0', '1', '2', '3', '4', '5', '6', '7', '8', '9',
        'A', 'B', 'C', 'D', 'E', 'F'] := by
  unfold quote_plus at h
  rw [List.mem_flatMap] at h
  obtain ⟨x, _, hx⟩ := h
  split at hx
  · left
    simpa using hx
  split at hx
  · next hsafe =>
      right; left
      rw [List.mem_singleton] at hx
      rw [hx]
      exact hsafe
  · rw [List.mem_flatMap] at hx
    obtain ⟨b, _, hb⟩ := hx
    rcases List.mem_cons.mp hb with rfl | hb
    · right; right; left; rfl
    rcases List.mem_cons.mp hb with rfl | hb
    · right; right; right; exact hexDigit_mem _
    rcases List.mem_cons.mp hb with rfl | hb
    · right; right; right; exact hexDigit_mem _
    cases hb

theorem quote_plus_avoid {s : List Char} {c : Char} (h : c ∈ quote_plus s) :
    c ≠ '&' ∧ c ≠ '=' ∧ c ≠ '?' ∧ c ≠ '#' ∧ c ≠ '/' ∧ c ≠ ':' := by
  have h' := quote_plus_chars h
  refine ⟨?_, ?_, ?_, ?_, ?_, ?_⟩ <;>
    (rintro rfl; rcases h' with h' | h' | h' | h' <;> revert h' <;> decide)

theorem toLower_schemeChar_ne {c : Char} (h : schemeChar c = true) :
    Char.toLower c ≠ '?' ∧ Char.toLower c ≠ '/' ∧ Char.toLower c ≠ '#' := by
  have hc : (65 ≤ c.toNat ∧ c.toNat ≤ 90) ∨ (97 ≤ c.toNat ∧ c.toNat ≤ 122) ∨
      (48 ≤ c.toNat ∧ c.toNat ≤ 57) ∨ c.toNat = 43 ∨ c.toNat = 45 ∨
      c.toNat = 46 := by
    unfold schemeChar at h
    simp only [List.mem_cons, List.not_mem_nil, or_false, decide_eq_true_eq] at h
    rcases h with ⟨h1, h2⟩ | h
    · left
      exact ⟨h1, h2⟩
    · rcases h with ⟨h1, h2⟩ | h
      · right; left
        exact ⟨h1, h2⟩
      · rcases h with ⟨h1, h2⟩ | h
        · right; right; left
          exact ⟨h1, h2⟩
        · rcases h with rfl | rfl | rfl
          · right; right; right; left; rfl
          · right; right; right; right; left; rfl
          · right; right; right; right; right; rfl
  unfold Char.toLower
  dsimp only
  split
  next hn =>
    have hv : (c.toNat + 32).isValidChar := Or.inl (by omega)
    have ht : (Char.ofNat (c.toNat + 32)).toNat = c.toNat + 32 := by
      rw [Char.ofNat, dif_pos hv]
      rfl
    refine ⟨fun he => ?_, fun he => ?_, fun he => ?_⟩ <;>
      (rw [he] at ht; revert ht; simp; omega)
  next hn =>
    refine ⟨fun he => ?_, fun he => ?_, fun he => ?_⟩ <;>
      (rw [he] at hc; revert hc; decide)

/-- The first piece of `splitTail` never contains the separator. -/
theorem splitTail_fst_not_mem (c : Char) (l : List Char) :
    c ∉ (splitTail c l).1 := by
  unfold splitTail
  rcases h : splitOnFirst c l with ⟨a, ob⟩
  rcases ob with _ | b
  · exact (splitOnFirst_none h).1 ▸ (splitOnFirst_none h).2
  · exact (splitOnFirst_some h).2

/-- A split-off scheme contains no URL delimiter characters. -/
theorem splitScheme_no_special {l : List Char} {x : Char}
    (hx : x ∈ (splitScheme l).1) : x ≠ '?' ∧ x ≠ '/' ∧ x ≠ '#' := by
  unfold splitScheme at hx
  rcases h : splitOnFirst ':' l with ⟨before, ob⟩
  rw [h] at hx
  rcases ob with _ | rest
  · cases hx
  · dsimp only at hx
    split at hx
    next hc =>
      unfold lowerAscii at hx
      rw [List.mem_map] at hx
      obtain ⟨c, hcm, rfl⟩ := hx
      exact toLower_schemeChar_ne (hc.2.1 c hcm)
    next => cases hx

/-- A split-off authority stops before any of `/?#`. -/
theorem splitNetlocE_ok_no_special {l netloc rest : List Char}
    (h : splitNetlocE l = .ok (netloc, rest)) :
    ∀ x ∈ netloc, x ≠ '/' ∧ x ≠ '?' ∧ x ≠ '#' := by
  intro x hx
  unfold splitNetlocE at h
  dsimp only at h
  repeat' split at h
  all_goals simp only [except_throw, except_pure] at h
  · exact Except.noConfusion h
  · cases h
    have := List.mem_takeWhile_imp hx
    simp only [List.mem_cons, List.not_mem_nil, or_false, decide_eq_true_eq,
      not_or] at this
    exact ⟨this.1, this.2.1, this.2.2⟩
  · cases h
    cases hx

/-- No component of a successful `urlsplit` other than the query carries a
`?`. -/
theorem urlsplit_ok_no_qmark {l scheme netloc path query fragment : List Char}
    (h : urlsplit l = .ok (scheme, netloc, path, query, fragment)) :
    (∀ x ∈ scheme, x ≠ '?') ∧ (∀ x ∈ netloc, x ≠ '?') ∧ '?' ∉ path := by
  unfold urlsplit at h
  dsimp only at h
  rcases hss : splitScheme (l.filter (fun c => ¬c ∈ ['\t', '\r', '\n']))
    with ⟨s1, url2⟩
  rw [hss] at h
  dsimp only at h
  rcases hn : splitNetlocE url2 with f | ⟨n1, url3⟩
  · rw [hn, except_bind_error] at h
    exact Except.noConfusion h
  · rw [hn, except_bind_ok] at h
    simp only [except_pure] at h
    cases h
    refine ⟨fun x hx => (splitScheme_no_special (l := l.filter
        (fun c => ¬c ∈ ['\t', '\r', '\n'])) ?_).1,
      fun x hx => (splitNetlocE_ok_no_special hn x hx).2.1, ?_⟩
    · rw [hss]
      exact hx
    · exact splitTail_fst_not_mem '?' _

/-- Splitting at the last occurrence reassembles the list. -/
theorem splitOnLast_some {c : Char} {l b a : List Char}
    (h : splitOnLast c l = some (b, a)) : l = b ++ c :: a := by
  unfold splitOnLast at h
  rcases hs : splitOnFirst c l.reverse with ⟨ra, ob⟩
  rw [hs] at h
  rcases ob with _ | rb
  · cases h
  · dsimp only at h
    cases h
    obtain ⟨h1, _⟩ := splitOnFirst_some hs
    have := congrArg List.reverse h1
    simpa using this

/-- The path piece of `splitparams` only contains characters of its
input. -/
theorem splitparams_fst_subset {l : List Char} {x : Char}
    (hx : x ∈ (splitparams l).1) : x ∈ l := by
  unfold splitparams at hx
  rcases hl : splitOnLast '/' l with _ | ⟨before, after⟩
  · rw [hl] at hx
    dsimp only at hx
    rcases hs : splitOnFirst ';' l with ⟨a, ob⟩
    rw [hs] at hx
    rcases ob with _ | b
    · exact (splitOnFirst_none hs).1 ▸ hx
    · dsimp only at hx
      rw [(splitOnFirst_some hs).1]
      simp [hx]
  · rw [hl] at hx
    dsimp only at hx
    rcases hs : splitOnFirst ';' after with ⟨a, ob⟩
    rw [hs] at hx
    rcases ob with _ | b
    · exact hx
    · dsimp only at hx
      rw [splitOnLast_some hl, (splitOnFirst_some hs).1]
      rcases List.mem_append.mp hx with h | h
      · simp [h]
      · rcases List.mem_cons.mp h with rfl | h
        · simp
        · simp [h]

/-- No component of a successful `urlparse` other than the query carries a
`?`. -/
theorem urlparse_ok_no_qmark {l : List Char} {parts : UrlParts}
    (h : urlparse l = .ok parts) :
    (∀ x ∈ parts.scheme, x ≠ '?') ∧ (∀ x ∈ parts.netloc, x ≠ '?') ∧
      '?' ∉ parts.path := by
  unfold urlparse at h
  rcases hs : urlsplit l with f | ⟨scheme, netloc, path0, query, fragment⟩
  · rw [hs, except_bind_error] at h
    exact Except.noConfusion h
  · rw [hs, except_bind_ok] at h
    dsimp only at h
    obtain ⟨h1, h2, h3⟩ := urlsplit_ok_no_qmark hs
    split at h
    · simp only [except_pure] at h
      cases h
      exact ⟨h1, h2, fun hq => h3 (splitparams_fst_subset hq)⟩
    · simp only [except_pure] at h
      cases h
      exact ⟨h1, h2, h3⟩

/-- `rstrip` only removes characters. -/
theorem rstripSlash_subset {l : List Char} {x : Char}
    (hx : x ∈ rstripSlash l) : x ∈ l := by
  unfold rstripSlash at hx
  rw [List.mem_reverse] at hx
  have := (List.dropWhile_sublist (fun c => decide (c = '/'))).mem hx
  rwa [List.mem_reverse] at this

/-- The rewritten `gviz/tq` path stays free of `?`. -/
theorem path_append_no_qmark {q : List Char} (hq : '?' ∉ q) :
    '?' ∉ rstripSlash q ++ '/' :: "gviz/tq".data := by
  intro hx
  rcases List.mem_append.mp hx with h | h
  · exact hq (rstripSlash_subset h)
  · revert h
    decide

/-- The resolved scheme, netloc and rewritten path of `get_url` carry no
`?`. -/
theorem get_url_resolve_no_qmark {uri : String} {headers gid : Int}
    {sheet : Option (List Char)} {r : ResolvedUrl}
    (h : get_url_resolve uri headers gid sheet = .ok r) :
    (∀ x ∈ r.scheme, x ≠ '?') ∧ (∀ x ∈ r.netloc, x ≠ '?') ∧ '?' ∉ r.path := by
  unfold get_url_resolve at h
  rcases hp : urlparse uri.data with f | parts
  · rw [hp, except_bind_error] at h
    exact Except.noConfusion h
  · rw [hp, except_bind_ok] at h
    dsimp only at h
    obtain ⟨h1, h2, h3⟩ := urlparse_ok_no_qmark hp
    repeat' split at h
    all_goals
      simp only [except_throw, except_pure, except_bind_ok, except_bind_error] at h
    all_goals first
      | exact Except.noConfusion h
      | (cases h;
         exact ⟨h1, h2, path_append_no_qmark
           (fun hx => h3 ((List.take_sublist _ _).mem hx))⟩)
      | (cases h; exact ⟨h1, h2, path_append_no_qmark h3⟩)

/-- The query handed to `urlunsplit` is exactly what follows the first `?`
of the assembled URL. -/
theorem queryOf_urlunsplit {scheme netloc path query : List Char}
    (hs : ∀ x ∈ scheme, x ≠ '?') (hn : ∀ x ∈ netloc, x ≠ '?')
    (hp : '?' ∉ path) (hq : query ≠ []) :
    (splitOnFirst '?' (urlunsplit scheme netloc path query [])).2 = some query := by
  unfold urlunsplit
  dsimp only
  rw [if_neg (by simp)]
  rw [if_pos hq]
  have key : ∀ u : List Char, '?' ∉ u →
      (splitOnFirst '?' ((if scheme ≠ [] then scheme ++ ':' :: u else u) ++
        '?' :: query)).2 = some query := by
    intro u hu
    split
    · rw [splitOnFirst_append]
      intro hx
      rcases List.mem_append.mp hx with hm | hm
      · exact hs _ hm rfl
      · rcases List.mem_cons.mp hm with hm | hm
        · exact absurd hm.symm (by decide)
        · exact hu hm
    · rw [splitOnFirst_append _ hu]
  apply key
  intro hx
  split at hx
  · rcases List.mem_append.mp hx with hm | hm
    · rcases List.mem_append.mp hm with hm | hm
      · revert hm
        decide
      · exact hn _ hm rfl
    · split at hm
      · rcases List.mem_cons.mp hm with hm | hm
        · exact absurd hm.symm (by decide)
        · exact hp hm
      · exact hp hm
  · exact hp hx

/-- `urlencode` of a one-entry dict. -/
theorem urlencode_one (k v : List Char) :
    urlencode [(k, v)] = quote_plus k ++ '=' :: quote_plus v := by
  simp [urlencode, List.intercalate]

/-- `urlencode` of a two-entry dict. -/
theorem urlencode_two (k1 v1 k2 v2 : List Char) :
    urlencode [(k1, v1), (k2, v2)] =
      (quote_plus k1 ++ '=' :: quote_plus v1) ++
        '&' :: (quote_plus k2 ++ '=' :: quote_plus v2) := by
  simp [urlencode, List.intercalate]

/-- An encoded `key=value` chunk contains no `&`. -/
theorem chunk_no_amp (k v : List Char) :
    '&' ∉ quote_plus k ++ '=' :: quote_plus v := by
  intro h
  rcases List.mem_append.mp h with h | h
  · exact (quote_plus_avoid h).1 rfl
  · rcases List.mem_cons.mp h with h | h
    · exact absurd h (by decide)
    · exact (quote_plus_avoid h).1 rfl

/-- The name part of an encoded chunk is the quoted key. -/
theorem queryKeys_chunk (k v : List Char) :
    List.takeWhile (fun c => c ≠ '=') (quote_plus k ++ '=' :: quote_plus v) =
      quote_plus k := by
  apply takeWhile_prefix_stop
  · intro y hy
    simp only [ne_eq, decide_not, Bool.not_eq_eq_eq_not, Bool.not_true,
      decide_eq_false_iff_not]
    exact (quote_plus_avoid hy).2.1
  · simp

/-- Parameter names of a one-entry encoded query. -/
theorem queryKeys_one (k v : List Char) :
    queryKeys (urlencode [(k, v)]) = [quote_plus k] := by
  rw [urlencode_one]
  unfold queryKeys
  rw [splitChar_not_mem (chunk_no_amp k v)]
  rw [List.map_singleton, queryKeys_chunk]

/-- Parameter names of a two-entry encoded query. -/
theorem queryKeys_two (k1 v1 k2 v2 : List Char) :
    queryKeys (urlencode [(k1, v1), (k2, v2)]) =
      [quote_plus k1, quote_plus k2] := by
  rw [urlencode_two]
  unfold queryKeys
  rw [splitChar_append _ (chunk_no_amp k1 v1)]
  rw [splitChar_not_mem (chunk_no_amp k2 v2)]
  simp only [List.map_cons, List.map_nil]
  rw [queryKeys_chunk, queryKeys_chunk]

/-- The query component of the URL `get_url` assembles is exactly the
encoded `args` string. -/
theorem queryOf_assembled {scheme netloc path q : List Char}
    (hs : ∀ x ∈ scheme, x ≠ '?') (hn : ∀ x ∈ netloc, x ≠ '?')
    (hp : '?' ∉ path) (hq : q ≠ []) :
    queryOf (String.mk (urlunparse scheme netloc path [] q [])) = q := by
  unfold queryOf urlunparse
  dsimp only
  rw [if_neg (by simp)]
  rw [queryOf_urlunsplit hs hn hp hq]
  rfl

/-- C5: the query string of every URL `get_url` returns carries exactly one
of the parameters `sheet` and `gid` - `sheet` precisely when a sheet name
is known after resolution (default or query override), `gid` otherwise
(even when it is the default zero) - and it carries `headers` exactly when
the resolved header count is positive. -/
theorem get_url_query_selection :
    ∀ (uri : String) (headers gid : Int) (sheet : Option (List Char))
      (u : String),
      get_url uri headers gid sheet = .ok u →
      ∃ r : ResolvedUrl, get_url_resolve uri headers gid sheet = .ok r ∧
        queryKeys (queryOf u) =
          (if 0 < r.headers then ["headers".data] else []) ++
            (match r.sheet with
             | some _ => ["sheet".data]
             | none => ["gid".data]) := by
  intro uri headers gid sheet u h
  unfold get_url at h
  rcases hr : get_url_resolve uri headers gid sheet with e | r
  · rw [hr, except_bind_error] at h
    exact Except.noConfusion h
  · rw [hr, except_bind_ok] at h
    dsimp only at h
    simp only [except_pure] at h
    cases h
    refine ⟨r, rfl, ?_⟩
    obtain ⟨hs, hn, hp⟩ := get_url_resolve_no_qmark hr
    by_cases hh : 0 < r.headers <;> rcases hsheet : r.sheet with _ | sname
    · have hargs : get_url_args r =
          [("headers".data, (toString r.headers).data),
           ("gid".data, (toString r.gid).data)] := by
        unfold get_url_args
        rw [if_pos hh, hsheet]
        rfl
      rw [hargs, queryOf_assembled hs hn hp (by rw [urlencode_two]; simp),
        queryKeys_two, if_pos hh]
      decide
    · have hargs : get_url_args r =
          [("headers".data, (toString r.headers).data),
           ("sheet".data, sname)] := by
        unfold get_url_args
        rw [if_pos hh, hsheet]
        rfl
      rw [hargs, queryOf_assembled hs hn hp (by rw [urlencode_two]; simp),
        queryKeys_two, if_pos hh]
      dsimp only
      decide
    · have hargs : get_url_args r = [("gid".data, (toString r.gid).data)] := by
        unfold get_url_args
        rw [if_neg hh, hsheet]
        rfl
      rw [hargs, queryOf_assembled hs hn hp (by rw [urlencode_one]; simp),
        queryKeys_one, if_neg hh]
      dsimp only
      decide
    · have hargs : get_url_args r = [("sheet".data, sname)] := by
        unfold get_url_args
        rw [if_neg hh, hsheet]
        rfl
      rw [hargs, queryOf_assembled hs hn hp (by rw [urlencode_one]; simp),
        queryKeys_one, if_neg hh]
      dsimp only
      decide

/-- C5 witness: the theorem at a concrete URL with a sheet override. -/
theorem get_url_query_selection_witness :
    ∃ r : ResolvedUrl,
      get_url_resolve "https://x/y/d/ID/edit?sheet=Sheet2" 0 0 none = .ok r ∧
      queryKeys (queryOf "https://x/y/d/ID/gviz/tq?sheet=Sheet2") =
        (if 0 < r.headers then ["headers".data] else []) ++
          (match r.sheet with
           | some _ => ["sheet".data]
           | none => ["gid".data]) :=
  get_url_query_selection "https://x/y/d/ID/edit?sheet=Sheet2" 0 0 none
    "https://x/y/d/ID/gviz/tq?sheet=Sheet2" (by decide)

theorem map_plus_id {s : List Char} (h : '+' ∉ s) :
    s.map (fun c => if c = '+' then ' ' else c) = s := by
  induction s with
  | nil => rfl
  | cons x xs ih =>
    rw [List.map_cons]
    rw [if_neg (by rintro rfl; exact h (by simp))]
    rw [ih (fun hc => h (by simp [hc]))]

theorem pctTokens_no_pct {s : List Char} (h : '%' ∉ s) :
    pctTokens s = s.map Sum.inl := by
  induction s with
  | nil => rfl
  | cons x xs ih =>
    have hx : x ≠ '%' := by rintro rfl; exact h (by simp)
    have ih' := ih (fun hc => h (by simp [hc]))
    rcases xs with _ | ⟨h1, t⟩
    · rfl
    rcases t with _ | ⟨h2, t2⟩
    · rw [pctTokens, ih']
      rfl
    · rw [pctTokens, if_neg hx, ih']
      rfl

theorem tokensToChars_lits (s : List Char) :
    tokensToChars [] (s.map Sum.inl) = s := by
  induction s with
  | nil => rfl
  | cons x xs ih =>
    rw [List.map_cons, tokensToChars, ih]
    rfl

theorem unquote_plus_id {s : List Char} (h : '%' ∉ s ∧ '+' ∉ s) :
    unquote_plus s = s := by
  unfold unquote_plus unquote
  rw [map_plus_id h.2, pctTokens_no_pct h.1, tokensToChars_lits]

theorem unquote_plus_safe {s : List Char} (h : safeTok s) :
    unquote_plus s = s :=
  unquote_plus_id ⟨fun hc => by simpa using (h _ hc), fun hc => by simpa using (h _ hc)⟩

theorem safeTok_append {a b : List Char} (ha : safeTok a) (hb : safeTok b) :
    safeTok (a ++ b) := by
  intro c hc
  rcases List.mem_append.mp hc with h | h
  · exact ha c h
  · exact hb c h

theorem safeTok_not_mem {a : List Char} (ha : safeTok a) {c : Char}
    (hc : c ∈ ['&', '=', '#', '?', ':', '/', '%', '+', '\t', '\r', '\n']) :
    c ∉ a :=
  fun hm => ha c hm hc

theorem parse_qsl_chunk {k v : List Char} (hk : safeTok k) (hv : safeTok v)
    (hvne : v ≠ []) :
    parse_qsl (k ++ '=' :: v) = [(k, v)] := by
  unfold parse_qsl
  rw [splitChar_not_mem]
  · rw [List.filterMap_cons]
    rw [if_neg (by simp)]
    rw [splitOnFirst_append _ (safeTok_not_mem hk (by decide))]
    dsimp only
    rw [if_neg hvne]
    rw [unquote_plus_safe hk, unquote_plus_safe hv]
    rfl
  · intro hm
    rcases List.mem_append.mp hm with h | h
    · exact safeTok_not_mem hk (by decide) h
    · rcases List.mem_cons.mp h with h | h
      · exact absurd h (by decide)
      · exact safeTok_not_mem hv (by decide) h

theorem parse_qsl_two_chunks {k1 v1 k2 v2 : List Char}
    (hk1 : safeTok k1) (hv1 : safeTok v1) (hk2 : safeTok k2)
    (hv2 : safeTok v2) (hv1ne : v1 ≠ []) (hv2ne : v2 ≠ []) :
    parse_qsl ((k1 ++ '=' :: v1) ++ '&' :: (k2 ++ '=' :: v2)) =
      [(k1, v1), (k2, v2)] := by
  have noamp : ∀ {k v : List Char}, safeTok k → safeTok v →
      '&' ∉ k ++ '=' :: v := by
    intro k v hk hv hm
    rcases List.mem_append.mp hm with h | h
    · exact safeTok_not_mem hk (by decide) h
    · rcases List.mem_cons.mp h with h | h
      · exact absurd h (by decide)
      · exact safeTok_not_mem hv (by decide) h
  unfold parse_qsl
  rw [splitChar_append _ (noamp hk1 hv1)]
  rw [splitChar_not_mem (noamp hk2 hv2)]
  rw [List.filterMap_cons, List.filterMap_cons, List.filterMap_nil]
  rw [if_neg (by simp), if_neg (by simp)]
  rw [splitOnFirst_append _ (safeTok_not_mem hk1 (by decide))]
  rw [splitOnFirst_append _ (safeTok_not_mem hk2 (by decide))]
  dsimp only
  rw [if_neg hv1ne, if_neg hv2ne]
  rw [unquote_plus_safe hk1, unquote_plus_safe hv1,
    unquote_plus_safe hk2, unquote_plus_safe hv2]

theorem filter_unsafe_id {q : List Char}
    (hq : ∀ c ∈ q, c ∉ ['\t', '\r', '\n']) :
    q.filter (fun c => ¬c ∈ ['\t', '\r', '\n']) = q := by
  apply List.filter_eq_self.mpr
  intro c hc
  simpa using hq c hc

theorem safeTok_unsafe {q : List Char} (hq : safeTok q) :
    ∀ c ∈ q, c ∉ ['\t', '\r', '\n'] := by
  intro c hc hm
  apply hq c hc
  rcases List.mem_cons.mp hm with rfl | hm
  · decide
  rcases List.mem_cons.mp hm with rfl | hm
  · decide
  rcases List.mem_cons.mp hm with rfl | hm
  · decide
  cases hm

theorem weak_drop {q : List Char}
    (hq : ∀ c ∈ q, c ∉ ['#', '\t', '\r', '\n']) :
    ∀ c ∈ q, c ∉ ['\t', '\r', '\n'] := by
  intro c hc hm
  apply hq c hc
  rcases List.mem_cons.mp hm with rfl | hm
  · decide
  rcases List.mem_cons.mp hm with rfl | hm
  · decide
  rcases List.mem_cons.mp hm with rfl | hm
  · decide
  cases hm

theorem weak_nohash {q : List Char}
    (hq : ∀ c ∈ q, c ∉ ['#', '\t', '\r', '\n']) : '#' ∉ q :=
  fun hm => hq '#' hm (by decide)

theorem urlparse_edit_q (q : List Char)
    (hq : ∀ c ∈ q, c ∉ ['#', '\t', '\r', '\n']) :
    urlparse ("https://x/y/d/ID/edit?".data ++ q) =
      .ok ⟨"https".data, "x".data, "/y/d/ID/edit".data, [], q, []⟩ := by
  unfold urlparse urlsplit
  dsimp only
  rw [List.filter_append]
  rw [show "https://x/y/d/ID/edit?".data.filter
      (fun c => ¬c ∈ ['\t', '\r', '\n']) = "https://x/y/d/ID/edit?".data
    from by decide]
  rw [filter_unsafe_id (weak_drop hq)]
  rw [show ("https://x/y/d/ID/edit?".data ++ q) =
    "https".data ++ ':' :: ("//x/y/d/ID/edit?".data ++ q) from by
      rw [show "https://x/y/d/ID/edit?".data =
        "https".data ++ ':' :: "//x/y/d/ID/edit?".data from by decide]
      rw [List.append_assoc]
      rfl]
  unfold splitScheme
  rw [splitOnFirst_append _ (by decide)]
  dsimp only
  rw [if_pos ?cond]
  case cond =>
    refine ⟨by decide, by decide, ?_⟩
    rintro ⟨-, hall⟩
    exact absurd (hall '/' (List.mem_append_left _ (by decide))) (by decide)
  dsimp only
  rw [show lowerAscii "https".data = "https".data from by decide]
  rw [show ("//x/y/d/ID/edit?".data ++ q) =
    '/' :: '/' :: ("x/y/d/ID/edit?".data ++ q) from by
      rw [show "//x/y/d/ID/edit?".data =
        '/' :: '/' :: "x/y/d/ID/edit?".data from by decide]
      rfl]
  unfold splitNetlocE
  rw [if_pos (by rfl)]
  dsimp only [List.drop_succ_cons, List.drop_zero]
  rw [show ("x/y/d/ID/edit?".data ++ q) =
    'x' :: '/' :: ("y/d/ID/edit?".data ++ q) from by
      rw [show "x/y/d/ID/edit?".data =
        'x' :: '/' :: "y/d/ID/edit?".data from by decide]
      rfl]
  rw [List.takeWhile_cons_of_pos (by decide),
    List.takeWhile_cons_of_neg (by decide)]
  rw [List.dropWhile_cons_of_pos (by decide),
    List.dropWhile_cons_of_neg (by decide)]
  rw [if_neg (by decide)]
  simp only [except_pure, except_bind_ok]
  unfold splitTail
  rw [show ('/' :: ("y/d/ID/edit?".data ++ q)) =
    "/y/d/ID/edit?".data ++ q from by
      rw [show "/y/d/ID/edit?".data = '/' :: "y/d/ID/edit?".data from by decide]
      rfl]
  rw [splitOnFirst_not_mem (c := '#') ?nohash]
  case nohash =>
    intro hm
    rcases List.mem_append.mp hm with h | h
    · exact absurd h (by decide)
    · exact weak_nohash hq h
  dsimp only
  rw [show ("/y/d/ID/edit?".data ++ q) =
    "/y/d/ID/edit".data ++ '?' :: q from by
      rw [show "/y/d/ID/edit?".data =
        "/y/d/ID/edit".data ++ ['?'] from by decide]
      rw [List.append_assoc]
      rfl]
  rw [splitOnFirst_append _ (by decide)]
  dsimp only
  rw [if_neg (by decide)]

theorem urlparse_edit_qf (q f : List Char)
    (hq : ∀ c ∈ q, c ∉ ['#', '\t', '\r', '\n'])
    (hf : ∀ c ∈ f, c ∉ ['#', '\t', '\r', '\n']) :
    urlparse (("https://x/y/d/ID/edit?".data ++ q) ++ '#' :: f) =
      .ok ⟨"https".data, "x".data, "/y/d/ID/edit".data, [], q, f⟩ := by
  unfold urlparse urlsplit
  dsimp only
  rw [List.filter_append, List.filter_append]
  rw [show "https://x/y/d/ID/edit?".data.filter
      (fun c => ¬c ∈ ['\t', '\r', '\n']) = "https://x/y/d/ID/edit?".data
    from by decide]
  rw [filter_unsafe_id (weak_drop hq)]
  rw [show ('#' :: f).filter (fun c => ¬c ∈ ['\t', '\r', '\n']) = '#' :: f from by
    rw [List.filter_cons_of_pos (by decide)]
    rw [filter_unsafe_id ?tails]
    case tails =>
      intro c hc hm
      apply hf c hc
      rcases List.mem_cons.mp hm with rfl | hm
      · decide
      rcases List.mem_cons.mp hm with rfl | hm
      · decide
      rcases List.mem_cons.mp hm with rfl | hm
      · decide
      cases hm]
  rw [show (("https://x/y/d/ID/edit?".data ++ q) ++ '#' :: f) =
    "https".data ++ ':' :: (("//x/y/d/ID/edit?".data ++ q) ++ '#' :: f) from by
      rw [show "https://x/y/d/ID/edit?".data =
        "https".data ++ ':' :: "//x/y/d/ID/edit?".data from by decide]
      simp only [List.append_assoc, List.cons_append]]
  unfold splitScheme
  rw [splitOnFirst_append _ (by decide)]
  dsimp only
  rw [if_pos ?cond]
  case cond =>
    refine ⟨by decide, by decide, ?_⟩
    rintro ⟨-, hall⟩
    exact absurd (hall '/' (List.mem_append_left _
      (List.mem_append_left _ (by decide)))) (by decide)
  dsimp only
  rw [show lowerAscii "https".data = "https".data from by decide]
  rw [show (("//x/y/d/ID/edit?".data ++ q) ++ '#' :: f) =
    '/' :: '/' :: (("x/y/d/ID/edit?".data ++ q) ++ '#' :: f) from by
      rw [show "//x/y/d/ID/edit?".data =
        '/' :: '/' :: "x/y/d/ID/edit?".data from by decide]
      rfl]
  unfold splitNetlocE
  rw [if_pos (by rfl)]
  dsimp only [List.drop_succ_cons, List.drop_zero]
  rw [show (("x/y/d/ID/edit?".data ++ q) ++ '#' :: f) =
    'x' :: '/' :: (("y/d/ID/edit?".data ++ q) ++ '#' :: f) from by
      rw [show "x/y/d/ID/edit?".data =
        'x' :: '/' :: "y/d/ID/edit?".data from by decide]
      rfl]
  rw [List.takeWhile_cons_of_pos (by decide),
    List.takeWhile_cons_of_neg (by decide)]
  rw [List.dropWhile_cons_of_pos (by decide),
    List.dropWhile_cons_of_neg (by decide)]
  rw [if_neg (by decide)]
  simp only [except_pure, except_bind_ok]
  unfold splitTail
  rw [show ('/' :: (("y/d/ID/edit?".data ++ q) ++ '#' :: f)) =
    ("/y/d/ID/edit?".data ++ q) ++ '#' :: f from by
      rw [show "/y/d/ID/edit?".data = '/' :: "y/d/ID/edit?".data from by decide]
      rfl]
  rw [splitOnFirst_append _ ?nohash]
  case nohash =>
    intro hm
    rcases List.mem_append.mp hm with h | h
    · exact absurd h (by decide)
    · exact weak_nohash hq h
  dsimp only
  rw [show ("/y/d/ID/edit?".data ++ q) =
    "/y/d/ID/edit".data ++ '?' :: q from by
      rw [show "/y/d/ID/edit?".data =
        "/y/d/ID/edit".data ++ ['?'] from by decide]
      rw [List.append_assoc]
      rfl]
  rw [splitOnFirst_append _ (by decide)]
  dsimp only
  rw [if_neg (by decide)]

theorem digit_safeTok {v : List Char} (hv : ∀ c ∈ v, isAsciiDigit c) :
    safeTok v := by
  intro c hc hm
  have hd := hv c hc
  fin_cases hm <;> revert hd <;> decide

theorem safeTok_weak {q : List Char} (hq : safeTok q) :
    ∀ c ∈ q, c ∉ ['#', '\t', '\r', '\n'] := by
  intro c hc hm
  apply hq c hc
  fin_cases hm <;> decide

theorem two_pair_weak {k v1 v2 : List Char} (hk : safeTok k)
    (h1 : safeTok v1) (h2 : safeTok v2) :
    ∀ c ∈ (k ++ '=' :: v1) ++ '&' :: (k ++ '=' :: v2),
      c ∉ ['#', '\t', '\r', '\n'] := by
  intro c hc
  rcases List.mem_append.mp hc with h | h
  · rcases List.mem_append.mp h with h | h
    · exact safeTok_weak hk c h
    · rcases List.mem_cons.mp h with rfl | h
      · decide
      · exact safeTok_weak h1 c h
  · rcases List.mem_cons.mp h with rfl | h
    · decide
    · rcases List.mem_append.mp h with h | h
      · exact safeTok_weak hk c h
      · rcases List.mem_cons.mp h with rfl | h
        · decide
        · exact safeTok_weak h2 c h

theorem resolve_gid_last_wins (v1 v2 : List Char) (n h0 g0 : Int)
    (s0 : Option (List Char))
    (hd1 : ∀ c ∈ v1, isAsciiDigit c) (hne1 : v1 ≠ [])
    (hd2 : ∀ c ∈ v2, isAsciiDigit c) (hne2 : v2 ≠ [])
    (hn : pyint? v2 = some n) :
    get_url_resolve (String.mk ("https://x/y/d/ID/edit?".data ++
        (("gid".data ++ '=' :: v1) ++ '&' :: ("gid".data ++ '=' :: v2))))
      h0 g0 s0 = .ok ⟨"https".data, "x".data, "/y/d/ID/gviz/tq".data,
        h0, n, s0⟩ := by
  have hs1 := digit_safeTok hd1
  have hs2 := digit_safeTok hd2
  unfold get_url_resolve
  rw [show (String.mk ("https://x/y/d/ID/edit?".data ++
      (("gid".data ++ '=' :: v1) ++ '&' :: ("gid".data ++ '=' :: v2)))).data =
    "https://x/y/d/ID/edit?".data ++
      (("gid".data ++ '=' :: v1) ++ '&' :: ("gid".data ++ '=' :: v2)) from rfl]
  rw [urlparse_edit_q _ (two_pair_weak (by decide) hs1 hs2)]
  rw [except_bind_ok]
  dsimp only
  rw [if_pos (by decide)]
  unfold qsLast
  rw [parse_qsl_two_chunks (by decide) hs1 (by decide) hs2 hne1 hne2]
  rw [show (([("gid".data, v1), ("gid".data, v2)].filter
      (fun p => p.1 = "headers".data)).getLast?).map Prod.snd = none from by
    simp [List.filter]]
  rw [show (([("gid".data, v1), ("gid".data, v2)].filter
      (fun p => p.1 = "gid".data)).getLast?).map Prod.snd = some v2 from by
    simp [List.filter]]
  rw [show (([("gid".data, v1), ("gid".data, v2)].filter
      (fun p => p.1 = "sheet".data)).getLast?).map Prod.snd = none from by
    simp [List.filter]]
  dsimp only
  rw [hn]
  rcases s0 with _ | s0v <;> rfl

theorem resolve_headers_last_wins (v1 v2 : List Char) (n h0 g0 : Int)
    (s0 : Option (List Char))
    (hd1 : ∀ c ∈ v1, isAsciiDigit c) (hne1 : v1 ≠ [])
    (hd2 : ∀ c ∈ v2, isAsciiDigit c) (hne2 : v2 ≠ [])
    (hn : pyint? v2 = some n) :
    get_url_resolve (String.mk ("https://x/y/d/ID/edit?".data ++
        (("headers".data ++ '=' :: v1) ++ '&' :: ("headers".data ++ '=' :: v2))))
      h0 g0 s0 = .ok ⟨"https".data, "x".data, "/y/d/ID/gviz/tq".data,
        n, g0, s0⟩ := by
  have hs1 := digit_safeTok hd1
  have hs2 := digit_safeTok hd2
  unfold get_url_resolve
  rw [show (String.mk ("https://x/y/d/ID/edit?".data ++
      (("headers".data ++ '=' :: v1) ++ '&' :: ("headers".data ++ '=' :: v2)))).data =
    "https://x/y/d/ID/edit?".data ++
      (("headers".data ++ '=' :: v1) ++ '&' :: ("headers".data ++ '=' :: v2)) from rfl]
  rw [urlparse_edit_q _ (two_pair_weak (by decide) hs1 hs2)]
  rw [except_bind_ok]
  dsimp only
  rw [if_pos (by decide)]
  unfold qsLast
  rw [parse_qsl_two_chunks (by decide) hs1 (by decide) hs2 hne1 hne2]
  rw [show (([("headers".data, v1), ("headers".data, v2)].filter
      (fun p => p.1 = "headers".data)).getLast?).map Prod.snd = some v2 from by
    simp [List.filter]]
  rw [show (([("headers".data, v1), ("headers".data, v2)].filter
      (fun p => p.1 = "gid".data)).getLast?).map Prod.snd = none from by
    simp [List.filter]]
  rw [show (([("headers".data, v1), ("headers".data, v2)].filter
      (fun p => p.1 = "sheet".data)).getLast?).map Prod.snd = none from by
    simp [List.filter]]
  dsimp only
  rw [hn]
  rcases s0 with _ | s0v <;> rfl

theorem resolve_sheet_last_wins (s1 s2 : List Char) (h0 g0 : Int)
    (s0 : Option (List Char))
    (hs1 : safeTok s1) (hne1 : s1 ≠ [])
    (hs2 : safeTok s2) (hne2 : s2 ≠ []) :
    get_url_resolve (String.mk ("https://x/y/d/ID/edit?".data ++
        (("sheet".data ++ '=' :: s1) ++ '&' :: ("sheet".data ++ '=' :: s2))))
      h0 g0 s0 = .ok ⟨"https".data, "x".data, "/y/d/ID/gviz/tq".data,
        h0, g0, some s2⟩ := by
  unfold get_url_resolve
  rw [show (String.mk ("https://x/y/d/ID/edit?".data ++
      (("sheet".data ++ '=' :: s1) ++ '&' :: ("sheet".data ++ '=' :: s2)))).data =
    "https://x/y/d/ID/edit?".data ++
      (("sheet".data ++ '=' :: s1) ++ '&' :: ("sheet".data ++ '=' :: s2)) from rfl]
  rw [urlparse_edit_q _ (two_pair_weak (by decide) hs1 hs2)]
  rw [except_bind_ok]
  dsimp only
  rw [if_pos (by decide)]
  unfold qsLast
  rw [parse_qsl_two_chunks (by decide) hs1 (by decide) hs2 hne1 hne2]
  rw [show (([("sheet".data, s1), ("sheet".data, s2)].filter
      (fun p => p.1 = "headers".data)).getLast?).map Prod.snd = none from by
    simp [List.filter]]
  rw [show (([("sheet".data, s1), ("sheet".data, s2)].filter
      (fun p => p.1 = "gid".data)).getLast?).map Prod.snd = none from by
    simp [List.filter]]
  rw [show (([("sheet".data, s1), ("sheet".data, s2)].filter
      (fun p => p.1 = "sheet".data)).getLast?).map Prod.snd = some s2 from by
    simp [List.filter]]
  rfl

theorem resolve_fragment_wins (v1 v2 : List Char) (m n h0 g0 : Int)
    (s0 : Option (List Char))
    (hd1 : ∀ c ∈ v1, isAsciiDigit c) (hne1 : v1 ≠ [])
    (hd2 : ∀ c ∈ v2, isAsciiDigit c)
    (hm : pyint? v1 = some m) (hn : pyint? v2 = some n) :
    get_url_resolve (String.mk (("https://x/y/d/ID/edit?".data ++
        ("gid".data ++ '=' :: v1)) ++ '#' :: ("gid=".data ++ v2)))
      h0 g0 s0 = .ok ⟨"https".data, "x".data, "/y/d/ID/gviz/tq".data,
        h0, n, s0⟩ := by
  have hs1 := digit_safeTok hd1
  have hs2 := digit_safeTok hd2
  unfold get_url_resolve
  rw [show (String.mk (("https://x/y/d/ID/edit?".data ++
      ("gid".data ++ '=' :: v1)) ++ '#' :: ("gid=".data ++ v2))).data =
    ("https://x/y/d/ID/edit?".data ++ ("gid".data ++ '=' :: v1)) ++
      '#' :: ("gid=".data ++ v2) from rfl]
  rw [urlparse_edit_qf _ _ ?hq ?hf]
  case hq =>
    intro c hc
    rcases List.mem_append.mp hc with h | h
    · exact safeTok_weak (by decide) c h
    · rcases List.mem_cons.mp h with rfl | h
      · decide
      · exact safeTok_weak hs1 c h
  case hf =>
    intro c hc
    rcases List.mem_append.mp hc with h | h
    · exact (by decide : ∀ c ∈ "gid=".data, c ∉ ['#', '\t', '\r', '\n']) c h
    · exact safeTok_weak hs2 c h
  rw [except_bind_ok]
  dsimp only
  rw [if_pos (by decide)]
  unfold qsLast
  rw [parse_qsl_chunk (by decide) hs1 hne1]
  rw [show (([("gid".data, v1)].filter
      (fun p => p.1 = "headers".data)).getLast?).map Prod.snd = none from by
    simp [List.filter]]
  rw [show (([("gid".data, v1)].filter
      (fun p => p.1 = "gid".data)).getLast?).map Prod.snd = some v1 from by
    simp [List.filter]]
  rw [show (([("gid".data, v1)].filter
      (fun p => p.1 = "sheet".data)).getLast?).map Prod.snd = none from by
    simp [List.filter]]
  dsimp only
  rw [hm]
  dsimp only
  split
  next =>
    rw [show List.drop 4 ("gid=".data ++ v2) = v2 from by
      rw [List.drop_append_of_le_length (by decide)]
      rfl]
    rw [hn]
    rcases s0 with _ | s0v <;> rfl
  next hcond =>
    exact absurd (by
      rw [List.take_append_of_le_length (by decide)]
      decide) hcond

/-- C6: each of `headers`, `gid` and `sheet` resolves to the last value of
a repeated query parameter, and a `gid=<integer>` fragment overrides the
query-string `gid`; in particular `https://x/y/d/ID/edit?gid=3#gid=7`
resolves gid to 7. -/
theorem get_url_last_wins_and_fragment :
    (∀ (v1 v2 : List Char) (n h0 g0 : Int) (s0 : Option (List Char)),
      (∀ c ∈ v1, isAsciiDigit c) → v1 ≠ [] →
      (∀ c ∈ v2, isAsciiDigit c) → v2 ≠ [] → pyint? v2 = some n →
      get_url_resolve (String.mk ("https://x/y/d/ID/edit?".data ++
          (("headers".data ++ '=' :: v1) ++ '&' ::
            ("headers".data ++ '=' :: v2)))) h0 g0 s0 =
        .ok ⟨"https".data, "x".data, "/y/d/ID/gviz/tq".data, n, g0, s0⟩) ∧
    (∀ (v1 v2 : List Char) (n h0 g0 : Int) (s0 : Option (List Char)),
      (∀ c ∈ v1, isAsciiDigit c) → v1 ≠ [] →
      (∀ c ∈ v2, isAsciiDigit c) → v2 ≠ [] → pyint? v2 = some n →
      get_url_resolve (String.mk ("https://x/y/d/ID/edit?".data ++
          (("gid".data ++ '=' :: v1) ++ '&' ::
            ("gid".data ++ '=' :: v2)))) h0 g0 s0 =
        .ok ⟨"https".data, "x".data, "/y/d/ID/gviz/tq".data, h0, n, s0⟩) ∧
    (∀ (s1 s2 : List Char) (h0 g0 : Int) (s0 : Option (List Char)),
      safeTok s1 → s1 ≠ [] → safeTok s2 → s2 ≠ [] →
      get_url_resolve (String.mk ("https://x/y/d/ID/edit?".data ++
          (("sheet".data ++ '=' :: s1) ++ '&' ::
            ("sheet".data ++ '=' :: s2)))) h0 g0 s0 =
        .ok ⟨"https".data, "x".data, "/y/d/ID/gviz/tq".data, h0, g0, some s2⟩) ∧
    (∀ (v1 v2 : List Char) (m n h0 g0 : Int) (s0 : Option (List Char)),
      (∀ c ∈ v1, isAsciiDigit c) → v1 ≠ [] →
      (∀ c ∈ v2, isAsciiDigit c) →
      pyint? v1 = some m → pyint? v2 = some n →
      get_url_resolve (String.mk (("https://x/y/d/ID/edit?".data ++
          ("gid".data ++ '=' :: v1)) ++ '#' :: ("gid=".data ++ v2)))
        h0 g0 s0 =
        .ok ⟨"https".data, "x".data, "/y/d/ID/gviz/tq".data, h0, n, s0⟩) ∧
    get_url "https://x/y/d/ID/edit?gid=3#gid=7" 0 0 none =
      .ok "https://x/y/d/ID/gviz/tq?gid=7" := by
  refine ⟨?_, ?_, ?_, ?_, by decide⟩
  · intro v1 v2 n h0 g0 s0 h1 h2 h3 h4 h5
    exact resolve_headers_last_wins v1 v2 n h0 g0 s0 h1 h2 h3 h4 h5
  · intro v1 v2 n h0 g0 s0 h1 h2 h3 h4 h5
    exact resolve_gid_last_wins v1 v2 n h0 g0 s0 h1 h2 h3 h4 h5
  · intro s1 s2 h0 g0 s0 h1 h2 h3 h4
    exact resolve_sheet_last_wins s1 s2 h0 g0 s0 h1 h2 h3 h4
  · intro v1 v2 m n h0 g0 s0 h1 h2 h3 h4 h5
    exact resolve_fragment_wins v1 v2 m n h0 g0 s0 h1 h2 h3 h4 h5

/-- C6 witness: the fragment-precedence part at `gid=3` / fragment
`gid=7`. -/
theorem get_url_last_wins_and_fragment_witness :
    get_url_resolve (String.mk (("https://x/y/d/ID/edit?".data ++
        ("gid".data ++ '=' :: "3".data)) ++ '#' :: ("gid=".data ++ "7".data)))
      0 0 none =
      .ok ⟨"https".data, "x".data, "/y/d/ID/gviz/tq".data, 0, 7, none⟩ :=
  get_url_last_wins_and_fragment.2.2.2.1 "3".data "7".data 3 7 0 0 none
    (by decide) (by decide) (by decide) (by decide) (by decide)

theorem singles_decode : ∀ s ∈ singles,
    get_index_from_letters s = .ok ((sIdx s : Nat) : Int) := by decide

theorem singles_genletters : ∀ s ∈ singles, gen_letters (sIdx s) = s := by decide

theorem genletters_singles : ∀ i : Nat, i < 26 →
    gen_letters i ∈ singles ∧ sIdx (gen_letters i) = i := by decide

theorem singles_sIdx_lt : ∀ s ∈ singles, sIdx s < 26 := by decide

theorem singles_lt_iff : ∀ a ∈ singles, ∀ b ∈ singles,
    (pyStrLt a.data b.data = true ↔ sIdx a < sIdx b) := by decide

theorem singles_sIdx_inj : ∀ a ∈ singles, ∀ b ∈ singles,
    sIdx a = sIdx b → a = b := by decide

theorem pymax_singles :
    ∀ (x : String) (xs : List String), (∀ s ∈ x :: xs, s ∈ singles) →
      ∃ m, pymax (x :: xs) = some m ∧ m ∈ x :: xs ∧
        ∀ a ∈ x :: xs, sIdx a ≤ sIdx m := by
  intro x xs
  induction xs generalizing x with
  | nil =>
    intro h
    exact ⟨x, rfl, by simp, by simp⟩
  | cons b t ih =>
    intro h
    have hx := h x (by simp)
    have hb := h b (by simp)
    have hstep : pymax (x :: b :: t) =
        pymax ((if pyStrLt x.data b.data then b else x) :: t) := by
      unfold pymax
      dsimp only
      rw [List.foldl_cons]
    obtain ⟨m, hm1, hm2, hm3⟩ := ih (if pyStrLt x.data b.data then b else x)
      (by
        intro s hs
        rcases List.mem_cons.mp hs with rfl | hs
        · split <;> [exact hb; exact hx]
        · exact h s (by simp [hs]))
    refine ⟨m, hstep ▸ hm1, ?_, ?_⟩
    · rcases List.mem_cons.mp hm2 with heq | hm2
      · by_cases hlt : pyStrLt x.data b.data = true
        · rw [if_pos hlt] at heq
          simp [heq]
        · rw [if_neg hlt] at heq
          simp [heq]
      · simp [hm2]
    · intro a ha
      have hxb : sIdx x ≤ sIdx (if pyStrLt x.data b.data then b else x) ∧
          sIdx b ≤ sIdx (if pyStrLt x.data b.data then b else x) := by
        split
        next hlt =>
          exact ⟨Nat.le_of_lt ((singles_lt_iff x hx b hb).mp hlt), Nat.le_refl _⟩
        next hlt =>
          refine ⟨Nat.le_refl _, ?_⟩
          have := (singles_lt_iff x hx b hb).not.mp (by simpa using hlt)
          omega
      have hhead := hm3 (if pyStrLt x.data b.data then b else x) (by simp)
      rcases List.mem_cons.mp ha with rfl | ha
      · exact Nat.le_trans hxb.1 hhead
      rcases List.mem_cons.mp ha with rfl | ha
      · exact Nat.le_trans hxb.2 hhead
      · exact hm3 a (by simp [ha])

theorem dget_singleton {β : Type} (a : String) (b : β) (k : String) :
    dget [(a, b)] k = if a = k then some b else none := by
  unfold dget
  simp [List.find?]
  split <;> simp_all

theorem dget_append {β : Type} (l₁ l₂ : List (String × β)) (k : String) :
    dget (l₁ ++ l₂) k =
      match dget l₂ k with
      | some v => some v
      | none => dget l₁ k := by
  unfold dget
  rw [List.reverse_append, List.find?_append]
  rcases h : (l₂.reverse.find? fun p => p.1 = k) with _ | p <;>
    simp [Option.orElse, h]

theorem dget_eq_none_iff {β : Type} {l : List (String × β)} {k : String} :
    dget l k = none ↔ ∀ p ∈ l, p.1 ≠ k := by
  unfold dget
  rw [Option.map_eq_none', List.find?_eq_none]
  constructor
  · intro h p hp
    simpa using h p (by simpa using hp)
  · intro h p hp
    simpa using h p (by simpa using hp)

theorem dget_mem {β : Type} {l : List (String × β)} {k : String} {v : β}
    (h : dget l k = some v) : (k, v) ∈ l := by
  unfold dget at h
  rcases hf : (l.reverse.find? fun p => p.1 = k) with _ | p
  · rw [hf] at h
    cases h
  · rw [hf] at h
    have hp1 : p.1 = k := by simpa using List.find?_some hf
    have hpm : p ∈ l := by
      have := List.mem_of_find?_eq_some hf
      simpa using this
    cases h
    rw [← hp1]
    exact hpm

theorem keys_functional {β : Type} {l : List (String × β)} {k : String}
    {v v' : β} (hnd : (l.map Prod.fst).Nodup)
    (h1 : (k, v) ∈ l) (h2 : (k, v') ∈ l) : v = v' := by
  induction l with
  | nil => cases h1
  | cons p t ih =>
    rw [List.map_cons, List.nodup_cons] at hnd
    rcases List.mem_cons.mp h1 with h1h | h1t
    · rcases List.mem_cons.mp h2 with h2h | h2t
      · exact (Prod.ext_iff.mp (h1h.trans h2h.symm)).2
      · cases h1h
        exact absurd (List.mem_map_of_mem Prod.fst h2t) (by simpa using hnd.1)
    · rcases List.mem_cons.mp h2 with h2h | h2t
      · cases h2h
        exact absurd (List.mem_map_of_mem Prod.fst h1t) (by simpa using hnd.1)
      · exact ih hnd.2 h1t h2t

theorem mem_dget {β : Type} {l : List (String × β)} {k : String} {v : β}
    (hnd : (l.map Prod.fst).Nodup) (h : (k, v) ∈ l) : dget l k = some v := by
  rcases hd : dget l k with _ | v'
  · rw [dget_eq_none_iff] at hd
    exact absurd rfl (hd (k, v) h)
  · rw [keys_functional hnd h (dget_mem hd)]

theorem dget_perm {β : Type} {l l' : List (String × β)} {k : String}
    (hnd : (l.map Prod.fst).Nodup) (hp : l'.Perm l) :
    dget l' k = dget l k := by
  have hnd' : (l'.map Prod.fst).Nodup := ((hp.map Prod.fst).nodup_iff).mpr hnd
  rcases hd : dget l k with _ | v
  · rw [dget_eq_none_iff] at hd ⊢
    intro p hpm
    exact hd p (hp.mem_iff.mp hpm)
  · exact mem_dget hnd' (hp.mem_iff.mpr (dget_mem hd))

theorem snds_functional {β : Type} {l : List (String × β)} {p q : String × β}
    (hnd : (l.map Prod.snd).Nodup) (h1 : p ∈ l) (h2 : q ∈ l)
    (heq : p.2 = q.2) : p = q := by
  induction l with
  | nil => cases h1
  | cons x t ih =>
    rw [List.map_cons, List.nodup_cons] at hnd
    rcases List.mem_cons.mp h1 with h1h | h1t
    · rcases List.mem_cons.mp h2 with h2h | h2t
      · rw [h1h, h2h]
      · cases h1h
        exact absurd (heq ▸ List.mem_map_of_mem Prod.snd h2t)
          (by simpa using hnd.1)
    · rcases List.mem_cons.mp h2 with h2h | h2t
      · cases h2h
        exact absurd (heq ▸ List.mem_map_of_mem Prod.snd h1t)
          (by simpa using hnd.1)
      · exact ih hnd.2 h1t h2t
theorem mem_row2 {α : Type} {row : List (String × α)}
    {columns : List (String × (α → α))} {column_map : List (String × String)}
    {p : String × α} :
    p ∈ row_by_letter (row_serialized row columns) column_map ↔
      ∃ k v f, (k, v) ∈ row ∧ dget columns k = some f ∧
        dget column_map k = some p.1 ∧ p.2 = f v := by
  unfold row_by_letter row_serialized
  rw [List.mem_filterMap]
  constructor
  · rintro ⟨kv1, h1, h2⟩
    rw [List.mem_filterMap] at h1
    obtain ⟨kv, hkv, hser⟩ := h1
    rcases hc : dget columns kv.1 with _ | f
    · rw [hc] at hser; cases hser
    rw [hc, Option.map_some'] at hser
    cases hser
    rcases hm : dget column_map kv.1 with _ | L
    · rw [hm] at h2; cases h2
    rw [hm, Option.map_some'] at h2
    cases h2
    exact ⟨kv.1, kv.2, f, hkv, hc, hm, rfl⟩
  · rintro ⟨k, v, f, hkv, hc, hm, hv⟩
    refine ⟨(k, f v), ?_, ?_⟩
    · rw [List.mem_filterMap]
      exact ⟨(k, v), hkv, by rw [hc, Option.map_some']⟩
    · rw [hm, Option.map_some']
      exact congrArg some (Prod.ext rfl hv.symm)

theorem dget_row2_none {α : Type} {row : List (String × α)}
    {columns : List (String × (α → α))} {column_map : List (String × String)}
    {L : String} (h : ∀ p ∈ column_map, p.2 ≠ L) :
    dget (row_by_letter (row_serialized row columns) column_map) L = none := by
  rw [dget_eq_none_iff]
  intro p hp
  rw [mem_row2] at hp
  obtain ⟨k, v, f, hkv, hc, hm, hv⟩ := hp
  exact h (k, p.1) (dget_mem hm)

theorem dget_row2_none_key_absent {α : Type} {row : List (String × α)}
    {columns : List (String × (α → α))} {column_map : List (String × String)}
    {k L : String}
    (hml : (column_map.map Prod.snd).Nodup)
    (hmem : (k, L) ∈ column_map)
    (habs : ∀ v, (k, v) ∉ row) :
    dget (row_by_letter (row_serialized row columns) column_map) L = none := by
  rw [dget_eq_none_iff]
  intro p hp
  rw [mem_row2] at hp
  obtain ⟨k2, v, f, hkv, hc, hm, hv⟩ := hp
  intro hL
  have h1 : (k2, p.1) ∈ column_map := dget_mem hm
  have h2 : (k2, p.1) = (k, L) := snds_functional hml h1 hmem (by simpa using hL)
  have hk2 : k2 = k := (Prod.ext_iff.mp h2).1
  exact habs v (hk2 ▸ hkv)

theorem dget_row2_mapped {α : Type} {columns : List (String × (α → α))}
    {column_map : List (String × String)} {k L : String}
    (hmk : (column_map.map Prod.fst).Nodup)
    (hml : (column_map.map Prod.snd).Nodup)
    (hmem : (k, L) ∈ column_map) :
    ∀ (row : List (String × α)), (row.map Prod.fst).Nodup →
      dget (row_by_letter (row_serialized row columns) column_map) L =
        (dget row k).bind fun v => (dget columns k).map fun f => f v := by
  intro row
  induction row using List.reverseRecOn with
  | nil =>
    intro _
    simp [row_by_letter, row_serialized, dget]
  | append_singleton r kv ih =>
    intro hrk
    obtain ⟨k1, v1⟩ := kv
    rw [List.map_append, List.nodup_append] at hrk
    have hrk' : (r.map Prod.fst).Nodup := hrk.1
    have hk1r : ∀ v, (k1, v) ∉ r := by
      intro v hv
      exact hrk.2.2 (List.mem_map_of_mem Prod.fst hv) (by simp)
    have hsplit : row_by_letter (row_serialized (r ++ [(k1, v1)]) columns) column_map
        = row_by_letter (row_serialized r columns) column_map
          ++ row_by_letter (row_serialized [(k1, v1)] columns) column_map := by
      unfold row_serialized row_by_letter
      rw [List.filterMap_append, List.filterMap_append]
    have hrget : dget (r ++ [(k1, v1)]) k =
        if k1 = k then some v1 else dget r k := by
      rw [dget_append, dget_singleton]
      split <;> simp_all
    rw [hsplit, dget_append, hrget]
    rcases hc : dget columns k1 with _ | f
    · have ht : row_by_letter (row_serialized [(k1, v1)] columns) column_map = [] := by
        unfold row_serialized row_by_letter
        simp [hc]
      rw [ht]
      by_cases hk : k1 = k
      · subst hk
        rw [if_pos rfl]
        have hnone : dget columns k1 = none := hc
        rw [show dget [] L = (none : Option α) from rfl]
        rw [dget_row2_none_key_absent hml hmem hk1r]
        simp [hnone]
      · rw [if_neg hk]
        rw [show dget [] L = (none : Option α) from rfl]
        exact ih hrk'
    · have ht : row_serialized [(k1, v1)] columns = [(k1, f v1)] := by
        unfold row_serialized
        simp [hc]
      rw [ht]
      rcases hm1 : dget column_map k1 with _ | L1
      · have ht2 : row_by_letter [(k1, f v1)] column_map = ([] : List (String × α)) := by
          unfold row_by_letter
          simp [hm1]
        rw [ht2]
        by_cases hk : k1 = k
        · subst hk
          exact absurd (mem_dget hmk hmem) (by rw [hm1]; simp)
        · rw [if_neg hk]
          rw [show dget [] L = (none : Option α) from rfl]
          exact ih hrk'
      · have ht2 : row_by_letter [(k1, f v1)] column_map = [(L1, f v1)] := by
          unfold row_by_letter
          simp [hm1]
        rw [ht2, dget_singleton]
        by_cases hk : k1 = k
        · subst hk
          have hLL : L1 = L := by
            have := mem_dget hmk hmem
            rw [hm1] at this
            exact (Option.some.injEq _ _).mp this
          subst hLL
          rw [if_pos rfl, if_pos rfl]
          simp [hc]
        · have hLL : L1 ≠ L := by
            intro hLe
            subst hLe
            have h1 : (k1, L1) ∈ column_map := dget_mem hm1
            have := snds_functional hml h1 hmem rfl
            exact hk (Prod.ext_iff.mp this).1
          rw [if_neg hLL, if_neg hk]
          exact ih hrk'

theorem pymax_perm_singles {l lp : List String}
    (hl : ∀ s ∈ l, s ∈ singles) (hp : lp.Perm l) :
    pymax lp = pymax l := by
  rcases l with _ | ⟨x, xs⟩
  · rw [List.perm_nil.mp hp]
  rcases lp with _ | ⟨y, ys⟩
  · exact absurd (List.perm_nil.mp hp.symm) (by simp)
  obtain ⟨m, hm1, hm2, hm3⟩ := pymax_singles x xs hl
  have hlp : ∀ s ∈ y :: ys, s ∈ singles := fun s hs => hl s (hp.mem_iff.mp hs)
  obtain ⟨n, hn1, hn2, hn3⟩ := pymax_singles y ys hlp
  have h1 : sIdx n ≤ sIdx m := hm3 n (hp.mem_iff.mp hn2)
  have h2 : sIdx m ≤ sIdx n := hn3 m (hp.mem_iff.mpr hm2)
  have heq : n = m :=
    singles_sIdx_inj n (hlp n hn2) m (hl m hm2) (Nat.le_antisymm h1 h2)
  rw [hm1, hn1, heq]
/-- C3 (amended): for a non-empty column map with pairwise-distinct field
names and pairwise-distinct single-character letters `"A"`..`"Z"`,
`get_values_from_row` succeeds with a list whose length is
`get_index_from_letters` of the maximal letter plus one, in which the
serialized value of the field mapped to letter `L` sits exactly at index
`decode L` (`none` when the field is absent from the row or from
`columns`), every position with no mapped letter holds `none`, and the
result is invariant under permutation of the row and of the column map. -/
theorem get_values_from_row_single_letters {α : Type}
    (row : List (String × α)) (columns : List (String × (α → α)))
    (column_map : List (String × String))
    (hne : column_map ≠ [])
    (hrk : (row.map Prod.fst).Nodup)
    (hmk : (column_map.map Prod.fst).Nodup)
    (hml : (column_map.map Prod.snd).Nodup)
    (hsingle : ∀ p ∈ column_map, p.2 ∈ singles) :
    ∃ out : List (Option α),
      get_values_from_row row columns column_map = .ok out ∧
      (∃ p ∈ column_map,
        get_index_from_letters p.2 = .ok ((out.length : Int) - 1) ∧
        ∀ q ∈ column_map, sIdx q.2 ≤ sIdx p.2) ∧
      (∀ p ∈ column_map, ∃ i : Nat,
        get_index_from_letters p.2 = .ok ((i : Nat) : Int) ∧ i < out.length ∧
        out[i]? = some ((dget row p.1).bind fun v =>
          (dget columns p.1).map fun f => f v)) ∧
      (∀ j < out.length, (∀ p ∈ column_map, sIdx p.2 ≠ j) →
        out[j]? = some none) ∧
      (∀ (rowp : List (String × α)) (cmapp : List (String × String)),
        rowp.Perm row → cmapp.Perm column_map →
        get_values_from_row rowp columns cmapp = .ok out) := by
  rcases hcm : column_map.map Prod.snd with _ | ⟨x, xs⟩
  · exact absurd (List.map_eq_nil_iff.mp hcm) hne
  have hsing2 : ∀ s ∈ x :: xs, s ∈ singles := by
    intro s hs
    rw [← hcm] at hs
    obtain ⟨p, hp, hps⟩ := List.mem_map.mp hs
    exact hps ▸ hsingle p hp
  obtain ⟨m, hm1, hm2, hm3⟩ := pymax_singles x xs hsing2
  have hmax : pymax (column_map.map Prod.snd) = some m := by rw [hcm]; exact hm1
  have hmS : m ∈ singles := hsing2 m hm2
  have hmcm : m ∈ column_map.map Prod.snd := by rw [hcm]; exact hm2
  obtain ⟨pm, hpm, hpm2⟩ := List.mem_map.mp hmcm
  have hub : ∀ q ∈ column_map, sIdx q.2 ≤ sIdx m := by
    intro q hq
    have hq2 : q.2 ∈ x :: xs := by
      rw [← hcm]
      exact List.mem_map_of_mem Prod.snd hq
    exact hm3 q.2 hq2
  have hdm : get_index_from_letters m = .ok ((sIdx m : Nat) : Int) :=
    singles_decode m hmS
  have hmlt : sIdx m < 26 := singles_sIdx_lt m hmS
  have htn : (((sIdx m : Nat) : Int) + 1).toNat = sIdx m + 1 := by omega
  refine ⟨((List.range (((sIdx m : Nat) : Int) + 1).toNat).map gen_letters).map
      fun c => dget (row_by_letter (row_serialized row columns) column_map) c,
    ?_, ?_, ?_, ?_, ?_⟩
  · unfold get_values_from_row
    rw [hmax]
    dsimp only
    rw [hdm, except_bind_ok, except_pure]
  · refine ⟨pm, hpm, ?_, ?_⟩
    · rw [hpm2, hdm]
      simp only [List.length_map, List.length_range, htn]
      congr 1
      omega
    · intro q hq
      rw [hpm2]
      exact hub q hq
  · intro p hp
    have hpS : p.2 ∈ singles := hsingle p hp
    have hplt : sIdx p.2 < (((sIdx m : Nat) : Int) + 1).toNat := by
      have := hub p hp
      omega
    refine ⟨sIdx p.2, singles_decode p.2 hpS, ?_, ?_⟩
    · simp only [List.length_map, List.length_range, htn]
      have := hub p hp
      omega
    · rw [List.getElem?_map, List.getElem?_map, List.getElem?_range hplt]
      simp only [Option.map_some']
      rw [singles_genletters p.2 hpS]
      have hmem : (p.1, p.2) ∈ column_map := Prod.mk.eta.symm ▸ hp
      rw [dget_row2_mapped hmk hml hmem row hrk]
  · intro j hj hnosame
    simp only [List.length_map, List.length_range, htn] at hj
    have hj26 : j < 26 := by omega
    obtain ⟨hgS, hgI⟩ := genletters_singles j hj26
    have hjN : j < (((sIdx m : Nat) : Int) + 1).toNat := by omega
    have hnm : ∀ p ∈ column_map, p.2 ≠ gen_letters j := by
      intro p hp hpe
      exact hnosame p hp (by rw [hpe, hgI])
    rw [List.getElem?_map, List.getElem?_map, List.getElem?_range hjN]
    simp only [Option.map_some']
    rw [dget_row2_none hnm]
  · intro rowp cmapp hprow hpcm
    have hlsing : ∀ s ∈ column_map.map Prod.snd, s ∈ singles := by
      intro s hs
      obtain ⟨p, hp, hps⟩ := List.mem_map.mp hs
      exact hps ▸ hsingle p hp
    have hmaxp : pymax (cmapp.map Prod.snd) = some m :=
      (pymax_perm_singles hlsing (hpcm.map Prod.snd)).trans hmax
    have hrkp : (rowp.map Prod.fst).Nodup := ((hprow.map Prod.fst).nodup_iff).mpr hrk
    have hmkp : (cmapp.map Prod.fst).Nodup := ((hpcm.map Prod.fst).nodup_iff).mpr hmk
    have hmlp : (cmapp.map Prod.snd).Nodup := ((hpcm.map Prod.snd).nodup_iff).mpr hml
    have hdeq : ∀ L ∈ (List.range (((sIdx m : Nat) : Int) + 1).toNat).map gen_letters,
        dget (row_by_letter (row_serialized rowp columns) cmapp) L =
          dget (row_by_letter (row_serialized row columns) column_map) L := by
      intro L hL
      by_cases hex : ∃ p ∈ column_map, p.2 = L
      · obtain ⟨p, hp, hpL⟩ := hex
        have hmem : (p.1, L) ∈ column_map := by
          rw [← hpL, Prod.mk.eta]
          exact hp
        have hmemp : (p.1, L) ∈ cmapp := hpcm.mem_iff.mpr hmem
        rw [dget_row2_mapped hmkp hmlp hmemp rowp hrkp,
            dget_row2_mapped hmk hml hmem row hrk,
            dget_perm hrk hprow]
      · push_neg at hex
        have hexp : ∀ p ∈ cmapp, p.2 ≠ L := fun p hp => hex p (hpcm.mem_iff.mp hp)
        rw [dget_row2_none hexp, dget_row2_none hex]
    unfold get_values_from_row
    rw [hmaxp]
    dsimp only
    rw [hdm, except_bind_ok, except_pure]
    congr 1
    exact List.map_congr_left hdeq
/-- C3 witness: the theorem applied to the concrete single-letter instance
`column_map = {"country": "A", "cnt": "C"}`, `row = {"country": "BR",
"cnt": 10}` with identity serializers, whose output is
`["BR", None, 10]`. -/
theorem get_values_from_row_single_letters_witness :
    (∃ out : List (Option PyVal),
      get_values_from_row
        [("country", PyVal.str "BR"), ("cnt", PyVal.int 10)]
        [("country", fun v => v), ("cnt", fun v => v)]
        [("country", "A"), ("cnt", "C")] = .ok out) ∧
    get_values_from_row
        [("country", PyVal.str "BR"), ("cnt", PyVal.int 10)]
        [("country", fun v => v), ("cnt", fun v => v)]
        [("country", "A"), ("cnt", "C")] =
      .ok [some (PyVal.str "BR"), none, some (PyVal.int 10)] := by
  obtain ⟨out, h1, -, -, -, -⟩ := get_values_from_row_single_letters
    [("country", PyVal.str "BR"), ("cnt", PyVal.int 10)]
    [("country", fun v => v), ("cnt", fun v => v)]
    [("country", "A"), ("cnt", "C")]
    (by decide) (by decide) (by decide) (by decide) (by decide)
  exact ⟨⟨out, h1⟩, rfl⟩
